import Mathlib

/-
Shallow embedding of the JWT extraction-and-mutation scripts
(src/JWTScan/property_modification.js, src/JWTScan/none_algorithms.js,
src/unnamed/part_000).

Modelling conventions:
- JavaScript strings are modelled as `List Char` (`Str`).
- JavaScript objects are modelled as insertion-ordered association lists
  `List (Str × Json)`; the exotic ECMAScript reordering of integer-like keys
  is outside the model.
- JSON numbers are modelled as integers (`Int`); fractional and exponent
  numerals, and IEEE-754 float behaviour, are outside the model.
- Node's `Buffer.from(s, 'base64')` is modelled leniently: characters outside
  the base64 alphabets (standard and URL-safe), including '=' padding and
  whitespace, are skipped, and a trailing partial group is truncated to the
  bytes it fully determines.  The decoder never fails, as in Node.
- Node's `Buffer.prototype.toString()` (UTF-8 decoding) is modelled as a total
  function emitting U+FFFD for invalid sequences.
- `JSON.parse` rejecting malformed text is modelled as `Option`; a thrown
  exception corresponds to `none`.
- All definitions use structural recursion (fuel-based where needed) so that
  concrete runs reduce by `rfl`/`decide`.
-/

set_option maxRecDepth 20000

abbrev Str := List Char

/-! ### Generic JavaScript string primitives -/

/-- Whitespace as recognised by JS `String.prototype.trim` (ASCII part). -/
def jsWhitespace (c : Char) : Bool :=
  c = ' ' || c = '\t' || c = '\n' || c = '\r' || c = '\x0b' || c = '\x0c'

/-- JS `String.prototype.trim`. -/
def jsTrim (s : Str) : Str :=
  ((s.dropWhile jsWhitespace).reverse.dropWhile jsWhitespace).reverse

/-- JS `String.prototype.split` with a one-character separator string. -/
def jsSplit : Str → Char → List Str
  | [], _ => [[]]
  | c :: cs, sep =>
    if c = sep then [] :: jsSplit cs sep
    else
      match jsSplit cs sep with
      | [] => [[c]]
      | s :: ss => (c :: s) :: ss

/-- JS array indexing `xs[i]`: out-of-range access yields `undefined`; in the
string-concatenation contexts where this model uses it, `undefined` renders
as the string "undefined". -/
def jsIndex (xs : List Str) (i : Nat) : Str :=
  (xs.get? i).getD "undefined".toList

/-- Splits a string at the first occurrence of `pat`, returning the parts
before and after it (the JS `indexOf` search order: leftmost match). -/
def splitFirst (pat : Str) : Str → Option (Str × Str)
  | [] => if pat.isPrefixOf ([] : Str) then some ([], []) else none
  | c :: cs =>
    if pat.isPrefixOf (c :: cs) then some ([], (c :: cs).drop pat.length)
    else (splitFirst pat cs).map fun pr => (c :: pr.1, pr.2)

/-- JS `String.prototype.replace` with a string pattern: replaces only the
first occurrence (no occurrence: the string is returned unchanged).  The
`$`-substitution of JS replacement strings is outside the model; every
replacement string the scripts produce is free of `$`. -/
def jsReplaceFirst (s pat repl : Str) : Str :=
  match splitFirst pat s with
  | none => s
  | some pr => pr.1 ++ repl ++ pr.2

/-- Fuel-based worker for `jsReplaceAll` with a nonempty pattern. -/
def jsReplaceAllAux (pat repl : Str) : Nat → Str → Str
  | 0, s => s
  | _ + 1, [] => []
  | fuel + 1, c :: cs =>
    if pat.isPrefixOf (c :: cs) then repl ++ jsReplaceAllAux pat repl fuel ((c :: cs).drop pat.length)
    else c :: jsReplaceAllAux pat repl fuel cs

/-- JS `String.prototype.replaceAll` with a string pattern: replaces every
non-overlapping occurrence, left to right.  An empty pattern inserts the
replacement at every position. -/
def jsReplaceAll (s pat repl : Str) : Str :=
  match pat with
  | [] => repl ++ s.foldr (fun c acc => c :: (repl ++ acc)) []
  | _ :: _ => jsReplaceAllAux pat repl s.length s

/-- JS `String.prototype.includes` (substring containment). -/
def jsIncludes (s pat : Str) : Bool :=
  (splitFirst pat s).isSome

/-! ### JSON values

JavaScript objects are insertion-ordered; the association list keeps that
order.  Numbers are restricted to integers (model restriction, see header). -/

inductive Json where
  | null : Json
  | bool (b : Bool) : Json
  | num (n : Int) : Json
  | str (s : Str) : Json
  | arr (elems : List Json) : Json
  | obj (members : List (Str × Json)) : Json

instance : Inhabited Json := ⟨Json.null⟩

/-- JS property read `o[k]` on an object: the first binding of `k` (a JS
object cannot actually carry duplicate keys, so the first is the only one). -/
def lookupKey (k : Str) : List (Str × Json) → Option Json
  | [] => none
  | (k0, v0) :: rest => if k0 = k then some v0 else lookupKey k rest

/-- JS spread-and-override `{ ...m, [k]: v }`: if `k` is already present its
binding is overwritten in place (key order preserved), otherwise `(k, v)` is
appended. -/
def setKey : List (Str × Json) → Str → Json → List (Str × Json)
  | [], k, v => [(k, v)]
  | (k0, v0) :: rest, k, v =>
    if k0 = k then (k, v) :: rest else (k0, v0) :: setKey rest k v

/-- Members of a JS value when iterated / spread as an object: non-objects
have no own enumerable string-keyed properties in the scripts' usage. -/
def objMembers : Json → List (Str × Json)
  | .obj ms => ms
  | _ => []

/-- Keeps the first binding for each key, in first-occurrence order: the
key sequence a JS `for...in` loop sees (a real JS object never has duplicate
keys, so on faithfully built objects this is the identity). -/
def uniqMembersAux : Nat → List (Str × Json) → List (Str × Json)
  | 0, _ => []
  | _ + 1, [] => []
  | fuel + 1, (k, v) :: rest =>
    (k, v) :: uniqMembersAux fuel (rest.filter fun kv => kv.1 ≠ k)

/-- Entry point of `uniqMembersAux` with enough fuel for its input. -/
def uniqMembers (ms : List (Str × Json)) : List (Str × Json) :=
  uniqMembersAux ms.length ms

/-! ### Decimal printing of integers -/

/-- Fuel-based most-significant-first decimal digits of a natural number. -/
def natDigitsAux : Nat → Nat → Str → Str
  | 0, _, acc => acc
  | fuel + 1, n, acc =>
    if n < 10 then Char.ofNat ('0'.toNat + n % 10) :: acc
    else natDigitsAux fuel (n / 10) (Char.ofNat ('0'.toNat + n % 10) :: acc)

/-- Decimal digit string of a natural number. -/
def natToStr (n : Nat) : Str := natDigitsAux (n + 1) n []

/-- Decimal rendering of an integer, as JS renders integral numbers. -/
def intToStr (n : Int) : Str :=
  if n < 0 then '-' :: natToStr (-n).toNat else natToStr n.toNat

mutual

/-- JS string coercion `String(v)` of a JSON value: numbers print in decimal,
arrays join their elements with ',' (null rendering as empty inside a join),
plain objects render as "[object Object]". -/
def jsToStr : Json → Str
  | .null => "null".toList
  | .bool true => "true".toList
  | .bool false => "false".toList
  | .num n => intToStr n
  | .str s => s
  | .arr es => jsToStrElems es
  | .obj _ => "[object Object]".toList

/-- Worker of `jsToStr` for array joins. -/
def jsToStrElems : List Json → Str
  | [] => []
  | [e] => jsToStrElem e
  | e :: rest => jsToStrElem e ++ ',' :: jsToStrElems rest

/-- String form of one array element inside a join: null renders empty. -/
def jsToStrElem : Json → Str
  | .null => []
  | e => jsToStr e

end

/-- JS `x + 1` on a JSON value (`num` is the only case the spec constrains;
the other cases follow JS coercion: strings concatenate "1", null and
booleans coerce to numbers, arrays and objects concatenate "1" onto their
string coercion). -/
def jsAdd1 : Json → Json
  | .num n => .num (n + 1)
  | .str s => .str (s ++ "1".toList)
  | .null => .num 1
  | .bool true => .num 2
  | .bool false => .num 1
  | v => .str (jsToStr v ++ "1".toList)

/-! ### JSON serialization (`JSON.stringify`) -/

/-- Lowercase hex digit for a value below 16. -/
def hexDigit (n : Nat) : Char :=
  if n < 10 then Char.ofNat ('0'.toNat + n) else Char.ofNat ('a'.toNat + n - 10)

/-- Escape of one character inside a JSON string literal, as `JSON.stringify`
emits it: two-character escapes for quote, backslash and the five named
control characters, `\u00xx` for the remaining control characters, and the
character itself otherwise. -/
def escapeChar (c : Char) : Str :=
  if c = '"' then ['\\', '"']
  else if c = '\\' then ['\\', '\\']
  else if c = '\x08' then ['\\', 'b']
  else if c = '\t' then ['\\', 't']
  else if c = '\n' then ['\\', 'n']
  else if c = '\x0c' then ['\\', 'f']
  else if c = '\r' then ['\\', 'r']
  else if c.toNat < 0x20 then ['\\', 'u', '0', '0', hexDigit (c.toNat / 16), hexDigit (c.toNat % 16)]
  else [c]

/-- JSON string literal for `s`: quotes around the escaped characters. -/
def quoteStr (s : Str) : Str :=
  '"' :: s.foldr (fun c acc => escapeChar c ++ acc) ['"']

mutual

/-- `JSON.stringify` on the modelled values (object key order = list order). -/
def jsonStringify : Json → Str
  | .null => "null".toList
  | .bool true => "true".toList
  | .bool false => "false".toList
  | .num n => intToStr n
  | .str s => quoteStr s
  | .arr es => '[' :: stringifyElems es ++ [']']
  | .obj ms => '{' :: stringifyMembers ms ++ ['}']

/-- Comma-separated serialization of array elements. -/
def stringifyElems : List Json → Str
  | [] => []
  | [e] => jsonStringify e
  | e :: rest => jsonStringify e ++ ',' :: stringifyElems rest

/-- Comma-separated serialization of object members. -/
def stringifyMembers : List (Str × Json) → Str
  | [] => []
  | [(k, v)] => quoteStr k ++ ':' :: jsonStringify v
  | (k, v) :: rest => quoteStr k ++ ':' :: jsonStringify v ++ ',' :: stringifyMembers rest

end

/-! ### UTF-8 (Node `Buffer.from(string)` / `buf.toString()`) -/

/-- UTF-8 encoding of one Unicode scalar value. -/
def utf8EncChar (c : Char) : List Nat :=
  let n := c.toNat
  if n < 0x80 then [n]
  else if n < 0x800 then [0xC0 + n / 64, 0x80 + n % 64]
  else if n < 0x10000 then [0xE0 + n / 4096, 0x80 + n / 64 % 64, 0x80 + n % 64]
  else [0xF0 + n / 262144, 0x80 + n / 4096 % 64, 0x80 + n / 64 % 64, 0x80 + n % 64]

/-- UTF-8 byte sequence of a string (Node `Buffer.from(s)`). -/
def utf8Enc (s : Str) : List Nat :=
  s.foldr (fun c acc => utf8EncChar c ++ acc) []

/-- Is `b` a UTF-8 continuation byte? -/
def utf8Cont (b : Nat) : Bool := 0x80 ≤ b && b < 0xC0

/-- The replacement character U+FFFD emitted for invalid sequences. -/
def replChar : Char := Char.ofNat 0xFFFD

/-- Fuel-based UTF-8 decoder, total like Node `buf.toString()`: invalid or
truncated sequences yield U+FFFD and the scan continues.  Fuel at least the
byte count is always sufficient (each step consumes one byte or more). -/
def utf8DecAux : Nat → List Nat → Str
  | 0, _ => []
  | _ + 1, [] => []
  | fuel + 1, b :: bs =>
    if b < 0x80 then Char.ofNat b :: utf8DecAux fuel bs
    else if b < 0xC2 then replChar :: utf8DecAux fuel bs
    else if b < 0xE0 then
      match bs with
      | b1 :: rest =>
        if utf8Cont b1 then Char.ofNat ((b - 0xC0) * 64 + (b1 - 0x80)) :: utf8DecAux fuel rest
        else replChar :: utf8DecAux fuel bs
      | [] => [replChar]
    else if b < 0xF0 then
      match bs with
      | b1 :: b2 :: rest =>
        if utf8Cont b1 && utf8Cont b2 && (b ≠ 0xE0 || 0xA0 ≤ b1) && (b ≠ 0xED || b1 < 0xA0) then
          Char.ofNat ((b - 0xE0) * 4096 + (b1 - 0x80) * 64 + (b2 - 0x80)) :: utf8DecAux fuel rest
        else replChar :: utf8DecAux fuel bs
      | _ => replChar :: utf8DecAux fuel bs
    else if b < 0xF5 then
      match bs with
      | b1 :: b2 :: b3 :: rest =>
        if utf8Cont b1 && utf8Cont b2 && utf8Cont b3 && (b ≠ 0xF0 || 0x90 ≤ b1) && (b ≠ 0xF4 || b1 < 0x90) then
          Char.ofNat ((b - 0xF0) * 262144 + (b1 - 0x80) * 4096 + (b2 - 0x80) * 64 + (b3 - 0x80)) :: utf8DecAux fuel rest
        else replChar :: utf8DecAux fuel bs
      | _ => replChar :: utf8DecAux fuel bs
    else replChar :: utf8DecAux fuel bs

/-- Total UTF-8 decoding (Node `buf.toString()`). -/
def utf8Dec (bs : List Nat) : Str := utf8DecAux bs.length bs

/-! ### Base64 (Node `buf.toString('base64')` / `Buffer.from(s, 'base64')`) -/

/-- The standard base64 alphabet, index order. -/
def b64Alphabet : Str :=
  "ABCDEFGHIJKLMNOPQRSTUVWXYZabcdefghijklmnopqrstuvwxyz0123456789+/".toList

/-- Character for a sextet value. -/
def b64Chr (n : Nat) : Char := b64Alphabet.getD n 'A'

/-- Sextet value of a character, accepting both the standard and the URL-safe
alphabet (as Node's base64 decoder does); `none` for everything else. -/
def b64Val (c : Char) : Option Nat :=
  if c = '+' || c = '-' then some 62
  else if c = '/' || c = '_' then some 63
  else if 'A' ≤ c ∧ c ≤ 'Z' then some (c.toNat - 'A'.toNat)
  else if 'a' ≤ c ∧ c ≤ 'z' then some (c.toNat - 'a'.toNat + 26)
  else if '0' ≤ c ∧ c ≤ '9' then some (c.toNat - '0'.toNat + 52)
  else none

/-- Standard base64 encoding with '=' padding (Node `buf.toString('base64')`). -/
def b64Enc : List Nat → Str
  | [] => []
  | [b0] => [b64Chr (b0 / 4), b64Chr (b0 % 4 * 16), '=', '=']
  | [b0, b1] => [b64Chr (b0 / 4), b64Chr (b0 % 4 * 16 + b1 / 16), b64Chr (b1 % 16 * 4), '=']
  | b0 :: b1 :: b2 :: rest =>
    b64Chr (b0 / 4) :: b64Chr (b0 % 4 * 16 + b1 / 16) ::
    b64Chr (b1 % 16 * 4 + b2 / 64) :: b64Chr (b2 % 64) :: b64Enc rest

/-- Standard base64 encoding without padding: what `b64Enc` output becomes
after every '=' is removed. -/
def b64EncNoPad : List Nat → Str
  | [] => []
  | [b0] => [b64Chr (b0 / 4), b64Chr (b0 % 4 * 16)]
  | [b0, b1] => [b64Chr (b0 / 4), b64Chr (b0 % 4 * 16 + b1 / 16), b64Chr (b1 % 16 * 4)]
  | b0 :: b1 :: b2 :: rest =>
    b64Chr (b0 / 4) :: b64Chr (b0 % 4 * 16 + b1 / 16) ::
    b64Chr (b1 % 16 * 4 + b2 / 64) :: b64Chr (b2 % 64) :: b64EncNoPad rest

/-- Bytes determined by a sextet sequence: full groups of four give three
bytes, a trailing group of two or three gives one or two bytes, a lone
trailing sextet is dropped. -/
def sextetsToBytes : List Nat → List Nat
  | [] => []
  | [_] => []
  | [a, b] => [a * 4 + b / 16]
  | [a, b, c] => [a * 4 + b / 16, b % 16 * 16 + c / 4]
  | a :: b :: c :: d :: rest =>
    (a * 4 + b / 16) :: (b % 16 * 16 + c / 4) :: (c % 4 * 64 + d) :: sextetsToBytes rest

/-- Lenient base64 decoding (Node `Buffer.from(s, 'base64')`): characters
outside both base64 alphabets — padding and whitespace included — are
skipped, and the surviving sextets are assembled into bytes. -/
def b64Dec (s : Str) : List Nat :=
  sextetsToBytes (s.filterMap b64Val)

/-! ### JSON parsing (`JSON.parse`) -/

/-- Whitespace accepted by the JSON grammar. -/
def jsonWs (c : Char) : Bool := c = ' ' || c = '\t' || c = '\n' || c = '\r'

/-- Drops leading JSON whitespace. -/
def skipWs (s : Str) : Str := s.dropWhile jsonWs

/-- Is `c` an ASCII decimal digit? -/
def isDigit (c : Char) : Bool := '0' ≤ c && c ≤ '9'

/-- Hex digit value, both cases. -/
def hexVal (c : Char) : Option Nat :=
  if '0' ≤ c ∧ c ≤ '9' then some (c.toNat - '0'.toNat)
  else if 'a' ≤ c ∧ c ≤ 'f' then some (c.toNat - 'a'.toNat + 10)
  else if 'A' ≤ c ∧ c ≤ 'F' then some (c.toNat - 'A'.toNat + 10)
  else none

/-- Numeric value of a digit string (most significant first). -/
def digitsVal (ds : Str) : Nat :=
  ds.foldl (fun a c => a * 10 + (c.toNat - '0'.toNat)) 0

/-- Parses a JSON natural-number literal: one or more digits, no leading
zero (except "0" itself). -/
def parseNatLit (s : Str) : Option (Nat × Str) :=
  let ds := s.takeWhile isDigit
  if ds.isEmpty then none
  else if ds.head? = some '0' ∧ 2 ≤ ds.length then none
  else some (digitsVal ds, s.dropWhile isDigit)

/-- Finishes a number literal: rejects a following fraction or exponent
marker (model restriction: floats are outside the model, so such numerals
are rejected rather than read as floats). -/
def parseNumAfter (v : Nat × Str) (neg : Bool) : Option (Int × Str) :=
  match v.2 with
  | c :: _ =>
    if c = '.' || c = 'e' || c = 'E' then none
    else some (if neg then -(v.1 : Int) else (v.1 : Int), v.2)
  | [] => some (if neg then -(v.1 : Int) else (v.1 : Int), [])

/-- Parses a JSON number as an integer (see `parseNumAfter` for the model
restriction on floats). -/
def parseNumber (s : Str) : Option (Int × Str) :=
  match s with
  | '-' :: rest => (parseNatLit rest).bind fun v => parseNumAfter v true
  | _ => (parseNatLit s).bind fun v => parseNumAfter v false

/-- Parses the body of a JSON string literal (after the opening quote) up to
the closing quote.  Lone `\uXXXX` surrogates decode to U+FFFD (model
restriction: JS strings may hold lone surrogates, Lean `Char` may not). -/
def parseStrBody : Nat → Str → Option (Str × Str)
  | 0, _ => none
  | _ + 1, [] => none
  | fuel + 1, c :: cs =>
    if c = '"' then some ([], cs)
    else if c = '\\' then
      match cs with
      | [] => none
      | e :: cs2 =>
        if e = 'u' then
          match cs2 with
          | h1 :: h2 :: h3 :: h4 :: cs3 =>
            match hexVal h1, hexVal h2, hexVal h3, hexVal h4 with
            | some a, some b, some c4, some d =>
              let n := a * 4096 + b * 256 + c4 * 16 + d
              if 0xD800 ≤ n ∧ n ≤ 0xDBFF then
                match cs3 with
                | '\\' :: 'u' :: g1 :: g2 :: g3 :: g4 :: cs4 =>
                  match hexVal g1, hexVal g2, hexVal g3, hexVal g4 with
                  | some a2, some b2, some c2, some d2 =>
                    let m := a2 * 4096 + b2 * 256 + c2 * 16 + d2
                    if 0xDC00 ≤ m ∧ m ≤ 0xDFFF then
                      (parseStrBody fuel cs4).map fun pr =>
                        (Char.ofNat (0x10000 + (n - 0xD800) * 1024 + (m - 0xDC00)) :: pr.1, pr.2)
                    else (parseStrBody fuel cs3).map fun pr => (replChar :: pr.1, pr.2)
                  | _, _, _, _ => (parseStrBody fuel cs3).map fun pr => (replChar :: pr.1, pr.2)
                | _ => (parseStrBody fuel cs3).map fun pr => (replChar :: pr.1, pr.2)
              else if 0xDC00 ≤ n ∧ n ≤ 0xDFFF then
                (parseStrBody fuel cs3).map fun pr => (replChar :: pr.1, pr.2)
              else (parseStrBody fuel cs3).map fun pr => (Char.ofNat n :: pr.1, pr.2)
            | _, _, _, _ => none
          | _ => none
        else
          match
            (if e = '"' then some '"' else if e = '\\' then some '\\'
             else if e = '/' then some '/' else if e = 'b' then some '\x08'
             else if e = 'f' then some '\x0c' else if e = 'n' then some '\n'
             else if e = 'r' then some '\r' else if e = 't' then some '\t'
             else none) with
          | some ch => (parseStrBody fuel cs2).map fun pr => (ch :: pr.1, pr.2)
          | none => none
    else if c.toNat < 0x20 then none
    else (parseStrBody fuel cs).map fun pr => (c :: pr.1, pr.2)

mutual

/-- Parses one JSON value at the head of the input (no leading whitespace). -/
def parseValue : Nat → Str → Option (Json × Str)
  | 0, _ => none
  | fuel + 1, s =>
    match s with
    | [] => none
    | c :: cs =>
      if c = '{' then
        match skipWs cs with
        | '}' :: rest => some (.obj [], rest)
        | s2 => parseMembers fuel s2 []
      else if c = '[' then
        match skipWs cs with
        | ']' :: rest => some (.arr [], rest)
        | s2 => parseElems fuel s2 []
      else if c = '"' then
        (parseStrBody (cs.length + 1) cs).map fun pr => (.str pr.1, pr.2)
      else if c = 'n' then
        if cs.take 3 = "ull".toList then some (.null, cs.drop 3) else none
      else if c = 't' then
        if cs.take 3 = "rue".toList then some (.bool true, cs.drop 3) else none
      else if c = 'f' then
        if cs.take 4 = "alse".toList then some (.bool false, cs.drop 4) else none
      else (parseNumber (c :: cs)).map fun pr => (.num pr.1, pr.2)

/-- Parses the members of a JSON object after the opening brace (nonempty
case), accumulating with `setKey` so that a duplicate key overwrites the
earlier binding in place, as building a JS object does. -/
def parseMembers : Nat → Str → List (Str × Json) → Option (Json × Str)
  | 0, _, _ => none
  | fuel + 1, s, acc =>
    match s with
    | '"' :: cs =>
      match parseStrBody (cs.length + 1) cs with
      | some (k, rest1) =>
        match skipWs rest1 with
        | ':' :: rest2 =>
          match parseValue fuel (skipWs rest2) with
          | some (v, rest3) =>
            match skipWs rest3 with
            | ',' :: rest4 => parseMembers fuel (skipWs rest4) (setKey acc k v)
            | '}' :: rest4 => some (.obj (setKey acc k v), rest4)
            | _ => none
          | none => none
        | _ => none
      | none => none
    | _ => none

/-- Parses the elements of a JSON array after the opening bracket (nonempty
case). -/
def parseElems : Nat → Str → List Json → Option (Json × Str)
  | 0, _, _ => none
  | fuel + 1, s, acc =>
    match parseValue fuel s with
    | some (v, rest) =>
      match skipWs rest with
      | ',' :: rest2 => parseElems fuel (skipWs rest2) (acc ++ [v])
      | ']' :: rest2 => some (.arr (acc ++ [v]), rest2)
      | _ => none
    | none => none

end

/-- `JSON.parse`: whitespace-framed single JSON value; anything else throws,
modelled as `none`. -/
def jsonParse (s : Str) : Option Json :=
  match parseValue (s.length + 1) (skipWs s) with
  | some (v, rest) => if skipWs rest = [] then some v else none
  | none => none

/-! ### The scripts (src/JWTScan/property_modification.js,
src/JWTScan/none_algorithms.js, src/unnamed/part_000; the helper functions
are byte-identical across the three files) -/

/-- Character class `[a-zA-Z0-9_-]` of the token regex. -/
def isTokChar (c : Char) : Bool := c.isAlphanum || c = '_' || c = '-'

/-- One attempted match of the regex
`(eyJ[a-zA-Z0-9_-]+)\.(eyJ[a-zA-Z0-9_-]+)\.([a-zA-Z0-9_-]*)` anchored at the
head of `s`; on success, the matched text and the remaining input.  The
character class excludes '.', so the greedy quantifiers never backtrack and
a take-while scan is exact. -/
def matchJWTAt (s : Str) : Option (Str × Str) :=
  match s with
  | 'e' :: 'y' :: 'J' :: rest =>
    match rest.takeWhile isTokChar, rest.dropWhile isTokChar with
    | [], _ => none
    | seg1, r1 =>
      match r1 with
      | '.' :: 'e' :: 'y' :: 'J' :: rest2 =>
        match rest2.takeWhile isTokChar, rest2.dropWhile isTokChar with
        | [], _ => none
        | seg2, r2 =>
          match r2 with
          | '.' :: rest3 =>
            some ('e' :: 'y' :: 'J' :: seg1 ++ '.' :: 'e' :: 'y' :: 'J' :: seg2 ++
                  '.' :: rest3.takeWhile isTokChar, rest3.dropWhile isTokChar)
          | _ => none
      | _ => none
  | _ => none

/-- Fuel-based scan for all (leftmost, non-overlapping) regex matches, the
`String.prototype.match` with the `g` flag of the scripts. -/
def findJWTsAux : Nat → Str → List Str
  | 0, _ => []
  | _ + 1, [] => []
  | fuel + 1, c :: cs =>
    match matchJWTAt (c :: cs) with
    | some (m, rest) => m :: findJWTsAux fuel rest
    | none => findJWTsAux fuel cs

/-- All JWT-shaped substrings of `s`, in match order. -/
def findJWTs (s : Str) : List Str := findJWTsAux s.length s

/-- One extracted token record `{ headerName, headerValue, token }`. -/
structure ExtractedToken where
  headerName : Str
  headerValue : Str
  token : Str

/-- The header lines the scanner iterates: `lines.slice(1, headersEndIndex)`
where `headersEndIndex` is the index of the first blank line, or `-1` when
there is none — and a JS slice end of `-1` excludes the last line. -/
def headerLinesOf (rawRequest : Str) : List Str :=
  let lines := jsSplit rawRequest '\n'
  match lines.findIdx? (fun l => jsTrim l = []) with
  | some i => (lines.drop 1).take (i - 1)
  | none => (lines.drop 1).dropLast

/-- `extractJWTs` of the scripts: scan each header line, split it at ':'
into name and value, and collect every regex match in the value. -/
def extractJWTs (rawRequest : Str) : List ExtractedToken :=
  (headerLinesOf rawRequest).flatMap fun line =>
    let parts := jsSplit line ':'
    let headerName := jsIndex parts 0
    let headerValue := jsTrim (List.intercalate [':'] (parts.drop 1))
    (findJWTs headerValue).map fun token =>
      ⟨jsTrim headerName, headerValue, token⟩

/-- A decoded token `{ header, payload, signature }`; the signature is the
third dot-segment and is `undefined` (here `none`) when the token has fewer
than three segments. -/
structure DecodedToken where
  header : Json
  payload : Json
  signature : Option Str

/-- `parseJWT` of the scripts: split on '.', base64-decode and JSON-parse
the first two segments.  `Buffer.from(segment, 'base64')` cannot throw, so
the only failures are a missing second segment (destructuring hands
`undefined` to `Buffer.from`, a TypeError) and `JSON.parse` rejecting the
decoded bytes. -/
def parseJWT (jwt : Str) : Option DecodedToken :=
  let parts := jsSplit jwt '.'
  match parts.get? 0, parts.get? 1 with
  | some h, some p =>
    match jsonParse (utf8Dec (b64Dec h)), jsonParse (utf8Dec (b64Dec p)) with
    | some hj, some pj => some ⟨hj, pj, parts.get? 2⟩
    | _, _ => none
  | _, _ => none

/-- `generateJWT` of the scripts: standard (not URL-safe) base64 of the two
JSON texts, dots, the raw signature, and — when `stripeq` — removal of every
'=' character from the whole string via `replaceAll`. -/
def generateJWT (header payload : Json) (sig : Str) (stripeq : Bool) : Str :=
  let encodedHeader := b64Enc (utf8Enc (jsonStringify header))
  let encodedPayload := b64Enc (utf8Enc (jsonStringify payload))
  let jwt := encodedHeader ++ '.' :: encodedPayload ++ '.' :: sig
  if stripeq then jsReplaceAll jwt ['='] [] else jwt

/-- The JS call `generateJWT(h, p, parsedJWT.signature)`: an `undefined`
signature triggers the default parameter `''`. -/
def sigOrDefault (sig : Option Str) : Str := sig.getD []

/-- `createVariants` of the scripts. -/
def createVariants (jwt : Str) : List Str :=
  let parts := jsSplit jwt '.'
  [jwt,
   jsIndex parts 0 ++ '.' :: jsIndex parts 1 ++ ['.'],
   jsIndex parts 0 ++ '.' :: jsIndex parts 1,
   jsIndex parts 0 ++ '.' :: jsIndex parts 1 ++ '.' :: jsIndex parts 2 ++ ['a']]

/-- The loop body of `testPropertyModification`, per payload key `prop`:
the decoded token `{ header, { ...payload, [prop]: payload[prop] + 1 },
signature }`, in `for...in` key order. -/
def propModMutations (d : DecodedToken) : List DecodedToken :=
  (uniqMembers (objMembers d.payload)).map fun kv =>
    ⟨d.header, .obj (setKey (objMembers d.payload) kv.1 (jsAdd1 kv.2)), d.signature⟩

/-- `testPropertyModification` of property_modification.js. -/
def testPropertyModification (d : DecodedToken) (originalJWT input : Str) (variances : Bool) : List Str :=
  (propModMutations d).flatMap fun m =>
    let newJWT := generateJWT m.header m.payload (sigOrDefault m.signature) true
    if variances then (createVariants newJWT).map fun v => jsReplaceFirst input originalJWT v
    else [jsReplaceFirst input originalJWT newJWT]

/-- The fixed candidate list `["none", "nOnE", "NONE", null, 0, ""]`. -/
def noneAlgs : List Json :=
  [.str "none".toList, .str "nOnE".toList, .str "NONE".toList, .null, .num 0, .str []]

/-- The loop body of `testNoneAlgorithm`, per candidate `alg`: the decoded
token `{ { ...header, alg }, payload, signature }`. -/
def noneAlgMutations (d : DecodedToken) : List DecodedToken :=
  noneAlgs.map fun alg =>
    ⟨.obj (setKey (objMembers d.header) "alg".toList alg), d.payload, d.signature⟩

/-- `testNoneAlgorithm` of none_algorithms.js. -/
def testNoneAlgorithm (d : DecodedToken) (originalJWT input : Str) (variances : Bool) : List Str :=
  (noneAlgMutations d).flatMap fun m =>
    let newJWT := generateJWT m.header m.payload (sigOrDefault m.signature) true
    if variances then (createVariants newJWT).map fun v => jsReplaceFirst input originalJWT v
    else [jsReplaceFirst input originalJWT newJWT]

/-- The `WEBHOOK_URL` constant shipped in src/unnamed/part_000.  The file
marks it caller configuration ("Change me to an URL that you control"), so
the functions below take the URL as a parameter and this constant is the
shipped default. -/
def WEBHOOK_URL : Str := "http://webhook.site/your-uuid".toList

/-- The fixed property list `["jku", "x5u", "kid"]`. -/
def ssrfProps : List Str := ["jku".toList, "x5u".toList, "kid".toList]

/-- The loop body of `testSSRF`, per property `prop`: the decoded token with
that header field set to the template literal
`WEBHOOK_URL?type=jwtssrftest&key=prop`. -/
def ssrfMutations (webhookUrl : Str) (d : DecodedToken) : List DecodedToken :=
  ssrfProps.map fun prop =>
    ⟨.obj (setKey (objMembers d.header) prop
        (.str (webhookUrl ++ "?type=jwtssrftest&key=".toList ++ prop))),
     d.payload, d.signature⟩

/-- `testSSRF` of src/unnamed/part_000. -/
def testSSRF (webhookUrl : Str) (d : DecodedToken) (originalJWT input : Str) (variances : Bool) : List Str :=
  (ssrfMutations webhookUrl d).flatMap fun m =>
    let newJWT := generateJWT m.header m.payload (sigOrDefault m.signature) true
    if variances then (createVariants newJWT).map fun v => jsReplaceFirst input originalJWT v
    else [jsReplaceFirst input originalJWT newJWT]

/-- Outcome of a script's `run`: a returned result array, the bare `return`
(JS `undefined`) after logging "No JWT found in request headers.", or a
propagated `parseJWT` exception. -/
inductive RunResult where
  | results (rs : List Str) : RunResult
  | noToken : RunResult
  | malformed : RunResult
deriving DecidableEq

/-- `run` of property_modification.js. -/
def runPropertyModification (input : Str) : RunResult :=
  match extractJWTs input with
  | [] => .noToken
  | first :: _ =>
    match parseJWT first.token with
    | some parsed => .results (testPropertyModification parsed first.token input true)
    | none => .malformed

/-- `run` of none_algorithms.js. -/
def runNoneAlgorithm (input : Str) : RunResult :=
  match extractJWTs input with
  | [] => .noToken
  | first :: _ =>
    match parseJWT first.token with
    | some parsed => .results (testNoneAlgorithm parsed first.token input true)
    | none => .malformed

/-- `run` of src/unnamed/part_000 (the SSRF script). -/
def runSSRF (webhookUrl : Str) (input : Str) : RunResult :=
  match extractJWTs input with
  | [] => .noToken
  | first :: _ =>
    match parseJWT first.token with
    | some parsed => .results (testSSRF webhookUrl parsed first.token input true)
    | none => .malformed

/-! ### Lemmas about the string primitives -/

theorem jsSplit_ne_nil (s : Str) (sep : Char) : jsSplit s sep ≠ [] := by
  cases s with
  | nil => simp [jsSplit]
  | cons c cs =>
    simp only [jsSplit]
    split
    · simp
    · cases h : jsSplit cs sep <;> simp

theorem jsSplit_of_not_mem {s : Str} {sep : Char} (h : sep ∉ s) :
    jsSplit s sep = [s] := by
  induction s with
  | nil => simp [jsSplit]
  | cons c cs ih =>
    have hc : c ≠ sep := fun e => h (e ▸ List.mem_cons_self c cs)
    have hcs : sep ∉ cs := fun m => h (List.mem_cons_of_mem c m)
    simp only [jsSplit, if_neg (fun e => hc e), ih hcs]

theorem jsSplit_append {a : Str} {sep : Char} (b : Str) (h : sep ∉ a) :
    jsSplit (a ++ sep :: b) sep = a :: jsSplit b sep := by
  induction a with
  | nil => simp [jsSplit]
  | cons c cs ih =>
    have hc : c ≠ sep := fun e => h (e ▸ List.mem_cons_self c cs)
    have hcs : sep ∉ cs := fun m => h (List.mem_cons_of_mem c m)
    have hrec := ih hcs
    simp only [List.cons_append, jsSplit, if_neg (fun e => hc e), List.append_eq, hrec]

/-! ### Lemmas about object operations -/

theorem lookupKey_setKey_self (m : List (Str × Json)) (k : Str) (v : Json) :
    lookupKey k (setKey m k v) = some v := by
  induction m with
  | nil => simp [setKey, lookupKey]
  | cons kv rest ih =>
    obtain ⟨k0, v0⟩ := kv
    by_cases h : k0 = k
    · simp [setKey, h, lookupKey]
    · simp [setKey, h, lookupKey, ih]

theorem lookupKey_setKey_ne (m : List (Str × Json)) {k k2 : Str} (v : Json)
    (h : k2 ≠ k) : lookupKey k2 (setKey m k v) = lookupKey k2 m := by
  induction m with
  | nil =>
    simp only [setKey, lookupKey]
    rw [if_neg (fun e => h e.symm)]
  | cons kv rest ih =>
    obtain ⟨k0, v0⟩ := kv
    by_cases h0 : k0 = k
    · subst h0
      simp only [setKey, if_pos rfl, lookupKey]
      rw [if_neg (fun e => h e.symm), if_neg (fun e => h e.symm)]
    · simp only [setKey, if_neg h0, lookupKey, ih]

theorem setKey_keys (m : List (Str × Json)) (k : Str) (v : Json) :
    (setKey m k v).map Prod.fst =
      if k ∈ m.map Prod.fst then m.map Prod.fst else m.map Prod.fst ++ [k] := by
  induction m with
  | nil => simp [setKey]
  | cons kv rest ih =>
    obtain ⟨k0, v0⟩ := kv
    by_cases h : k0 = k
    · subst h
      simp [setKey]
    · have hne : ¬ (k = k0) := fun e => h e.symm
      by_cases hmem : k ∈ rest.map Prod.fst
      · simp only [setKey, if_neg h, List.map_cons, ih, if_pos hmem,
          List.mem_cons, hne, false_or, if_pos hmem]
      · simp only [setKey, if_neg h, List.map_cons, ih, if_neg hmem,
          List.mem_cons, hne, false_or, if_neg hmem, List.cons_append]

theorem setKey_fresh {m : List (Str × Json)} {k : Str} (v : Json)
    (h : ∀ kv ∈ m, kv.1 ≠ k) : setKey m k v = m ++ [(k, v)] := by
  induction m with
  | nil => simp [setKey]
  | cons kv rest ih =>
    obtain ⟨k0, v0⟩ := kv
    have h0 : k0 ≠ k := h (k0, v0) (List.mem_cons_self _ _)
    have hrest : ∀ kv ∈ rest, kv.1 ≠ k := fun kv m2 => h kv (List.mem_cons_of_mem _ m2)
    simp [setKey, h0, ih hrest]

theorem uniqMembersAux_of_nodup (fuel : Nat) :
    ∀ ms : List (Str × Json), ms.length ≤ fuel → (ms.map Prod.fst).Nodup →
      uniqMembersAux fuel ms = ms := by
  induction fuel with
  | zero =>
    intro ms hlen _
    rw [List.length_eq_zero.mp (Nat.le_zero.mp hlen)]
    rfl
  | succ fuel ih =>
    intro ms hlen hnd
    cases ms with
    | nil => rfl
    | cons kv rest =>
      obtain ⟨k, v⟩ := kv
      simp only [List.map_cons, List.nodup_cons] at hnd
      have hfresh : rest.filter (fun kv => kv.1 ≠ k) = rest := by
        apply List.filter_eq_self.mpr
        intro kv hm
        have : kv.1 ∈ rest.map Prod.fst := List.mem_map_of_mem Prod.fst hm
        simp only [decide_eq_true_eq]
        exact fun e => hnd.1 (e ▸ this)
      simp only [uniqMembersAux, hfresh]
      have : rest.length ≤ fuel := by
        simpa using Nat.succ_le_succ_iff.mp hlen
      rw [ih rest this hnd.2]

theorem uniqMembers_of_nodup {ms : List (Str × Json)}
    (hnd : (ms.map Prod.fst).Nodup) : uniqMembers ms = ms :=
  uniqMembersAux_of_nodup ms.length ms le_rfl hnd

/-! ### Lemmas about first-occurrence replacement -/

theorem splitFirst_eq_append {pat s a b : Str}
    (h : splitFirst pat s = some (a, b)) : s = a ++ pat ++ b := by
  induction s generalizing a with
  | nil =>
    simp only [splitFirst] at h
    split at h
    · rename_i hp
      have : pat = [] := by
        cases pat with
        | nil => rfl
        | cons c cs => simp [List.isPrefixOf] at hp
      obtain ⟨rfl, rfl⟩ : a = [] ∧ b = [] := by
        constructor <;> simp_all
      simp [this]
    · simp at h
  | cons c cs ih =>
    simp only [splitFirst] at h
    split at h
    · rename_i hp
      obtain ⟨t, ht⟩ := List.isPrefixOf_iff_prefix.mp hp
      obtain ⟨rfl, rfl⟩ : a = [] ∧ b = (c :: cs).drop pat.length := by
        constructor <;> simp_all
      conv_lhs => rw [← ht]
      simp [← ht, List.drop_left]
    · cases hrec : splitFirst pat cs with
      | none => rw [hrec] at h; exact absurd h (by simp)
      | some pr =>
        obtain ⟨a2, b2⟩ := pr
        rw [hrec] at h
        have h2 : (c :: a2, b2) = (a, b) := by simpa using h
        cases h2
        simpa using ih hrec

theorem jsReplaceFirst_of_splitFirst {pat s a b : Str} (repl : Str)
    (h : splitFirst pat s = some (a, b)) :
    jsReplaceFirst s pat repl = a ++ repl ++ b := by
  simp [jsReplaceFirst, h]

/-! ### Claim C6 — variant generation -/

/-- Claim C6: for every well-formed 3-segment token `h.p.s` (segments free of
dots), `createVariants` is a pure function returning exactly the 4 strings
`[t, h.p., h.p, h.p.(s ++ "a")]` in that fixed order, the unmodified token
first. -/
theorem createVariants_spec (h p s : Str)
    (hh : '.' ∉ h) (hp : '.' ∉ p) (hs : '.' ∉ s) :
    createVariants (h ++ '.' :: p ++ '.' :: s) =
      [h ++ '.' :: p ++ '.' :: s,
       h ++ '.' :: p ++ ['.'],
       h ++ '.' :: p,
       h ++ '.' :: p ++ '.' :: s ++ ['a']] := by
  have hsplit : jsSplit (h ++ '.' :: (p ++ '.' :: s)) '.' = [h, p, s] := by
    rw [jsSplit_append _ hh, jsSplit_append _ hp, jsSplit_of_not_mem hs]
  simp [createVariants, hsplit, jsIndex]

/-- Witness for C6 at the concrete token `eyJx.eyJy.zz`. -/
theorem createVariants_spec_witness :
    createVariants ("eyJx".toList ++ '.' :: "eyJy".toList ++ '.' :: "zz".toList) =
      ["eyJx".toList ++ '.' :: "eyJy".toList ++ '.' :: "zz".toList,
       "eyJx".toList ++ '.' :: "eyJy".toList ++ ['.'],
       "eyJx".toList ++ '.' :: "eyJy".toList,
       "eyJx".toList ++ '.' :: "eyJy".toList ++ '.' :: "zz".toList ++ ['a']] :=
  createVariants_spec _ _ _ (by decide) (by decide) (by decide)

/-! ### Claim C4 — empty extraction outcome -/

/-- Claim C4, counterexample: on a request whose header section is empty the
scanner extracts nothing and both scripts' `run` performs the bare `return`
(JS `undefined`) after logging — which is not the empty result array the
claim asserts. -/
theorem run_noToken_counterexample :
    extractJWTs "GET / HTTP/1.1\n\nbody".toList = [] ∧
    runPropertyModification "GET / HTTP/1.1\n\nbody".toList = .noToken ∧
    runNoneAlgorithm "GET / HTTP/1.1\n\nbody".toList = .noToken ∧
    RunResult.noToken ≠ RunResult.results [] :=
  ⟨rfl, rfl, rfl, by decide⟩

/-- Claim C4 as amended: for every request text from which the scanner
extracts no candidate tokens, every script's `run` signals the no-token case
(logs "No JWT found in request headers.") and returns JS `undefined` — an
absent value, not an empty sequence; the outcome is non-fatal (no exception
is thrown). -/
theorem run_noToken_of_extract_empty (input : Str) (h : extractJWTs input = []) :
    runPropertyModification input = .noToken ∧
    runNoneAlgorithm input = .noToken ∧
    ∀ url, runSSRF url input = .noToken := by
  refine ⟨?_, ?_, fun url => ?_⟩ <;>
    simp [runPropertyModification, runNoneAlgorithm, runSSRF, h]

/-- Witness for the amended C4 at a concrete token-free request. -/
theorem run_noToken_of_extract_empty_witness :
    runPropertyModification "GET / HTTP/1.1\n\nbody".toList = .noToken ∧
    runNoneAlgorithm "GET / HTTP/1.1\n\nbody".toList = .noToken ∧
    ∀ url, runSSRF url "GET / HTTP/1.1\n\nbody".toList = .noToken :=
  run_noToken_of_extract_empty _ rfl

/-! ### Claim C10 — scanning when the request has no blank line -/

/-- Claim C10: when the raw request contains no blank line at all,
`findIndex` returns `-1` and `lines.slice(1, -1)` scans every line except
the first and except the last; consequently, on the concrete two-line
request `GET / HTTP/1.1\nAuth: eyJa.eyJb.c`, a token pattern sitting on the
last line is not extracted even though the pattern matcher recognises it. -/
theorem extract_skips_last_line_without_blank (raw : Str)
    (hnb : ∀ l ∈ jsSplit raw '\n', jsTrim l ≠ []) :
    headerLinesOf raw = ((jsSplit raw '\n').drop 1).dropLast ∧
    extractJWTs "GET / HTTP/1.1\nAuth: eyJa.eyJb.c".toList = [] ∧
    findJWTs "eyJa.eyJb.c".toList = ["eyJa.eyJb.c".toList] := by
  refine ⟨?_, rfl, rfl⟩
  have hidx : (jsSplit raw '\n').findIdx? (fun l => jsTrim l = []) = none := by
    rw [List.findIdx?_eq_none_iff]
    intro l hl
    simpa using hnb l hl
  simp [headerLinesOf, hidx]

/-- Witness for C10 at the concrete last-line-token request. -/
theorem extract_skips_last_line_without_blank_witness :
    headerLinesOf "GET / HTTP/1.1\nAuth: eyJa.eyJb.c".toList =
      ((jsSplit "GET / HTTP/1.1\nAuth: eyJa.eyJb.c".toList '\n').drop 1).dropLast ∧
    extractJWTs "GET / HTTP/1.1\nAuth: eyJa.eyJb.c".toList = [] ∧
    findJWTs "eyJa.eyJb.c".toList = ["eyJa.eyJb.c".toList] :=
  extract_skips_last_line_without_blank _ (by decide)

/-! ### Claim C2 — decode failure conditions -/

/-- Claim C2, counterexample: a four-segment input decodes successfully
(the destructuring ignores the fourth segment), where the claim requires
decode to fail on every input whose segment count differs from 3. -/
theorem parseJWT_segment_count_counterexample :
    (jsSplit "eyJhIjoxfQ.eyJhIjoxfQ.x.y".toList '.').length = 4 ∧
    parseJWT "eyJhIjoxfQ.eyJhIjoxfQ.x.y".toList =
      some ⟨Json.obj [("a".toList, Json.num 1)],
            Json.obj [("a".toList, Json.num 1)], some "x".toList⟩ :=
  ⟨rfl, rfl⟩

/-- Claim C2 as amended: decode fails exactly when the input has only one
dot-separated segment (the destructured payload is `undefined`, so
`Buffer.from` throws) or `JSON.parse` rejects the leniently base64-decoded
bytes of segment 1 or segment 2.  The segment count is otherwise unchecked:
segments beyond the third are ignored, a missing third segment leaves the
signature `undefined`, base64 decoding itself never fails, and non-object
JSON text is accepted. -/
theorem parseJWT_none_iff (jwt : Str) :
    parseJWT jwt = none ↔
      ((jsSplit jwt '.').length < 2 ∨
       jsonParse (utf8Dec (b64Dec ((jsSplit jwt '.').getD 0 []))) = none ∨
       jsonParse (utf8Dec (b64Dec ((jsSplit jwt '.').getD 1 []))) = none) := by
  unfold parseJWT
  cases hp : jsSplit jwt '.' with
  | nil => exact absurd hp (jsSplit_ne_nil jwt '.')
  | cons h rest =>
    cases rest with
    | nil => simp
    | cons p rest2 =>
      cases hh : jsonParse (utf8Dec (b64Dec h)) <;>
        cases hpp : jsonParse (utf8Dec (b64Dec p)) <;>
          simp [hh, hpp]

/-! ### Claim C7 — the none-algorithm strategy -/

/-- Claim C7: for every decoded token, the none-algorithm strategy produces
exactly 6 mutations, one per candidate of the fixed ordered list
`["none", "nOnE", "NONE", null, 0, ""]`; the i-th mutation's header carries
the i-th candidate at `alg` (overwritten in place when present, appended
when absent, all other header fields untouched), and every mutation keeps
the payload and the signature of the input unchanged. -/
theorem noneAlgMutations_spec (d : DecodedToken) :
    (noneAlgMutations d).length = 6 ∧
    ∀ i a m, noneAlgs.get? i = some a → (noneAlgMutations d).get? i = some m →
      m.payload = d.payload ∧ m.signature = d.signature ∧
      lookupKey "alg".toList (objMembers m.header) = some a ∧
      (∀ k, k ≠ "alg".toList →
        lookupKey k (objMembers m.header) = lookupKey k (objMembers d.header)) ∧
      (objMembers m.header).map Prod.fst =
        (if "alg".toList ∈ (objMembers d.header).map Prod.fst
         then (objMembers d.header).map Prod.fst
         else (objMembers d.header).map Prod.fst ++ ["alg".toList]) := by
  refine ⟨rfl, fun i a m ha hm => ?_⟩
  rw [noneAlgMutations, List.get?_map, ha, Option.map_some'] at hm
  obtain rfl : ({ header := .obj (setKey (objMembers d.header) "alg".toList a),
                  payload := d.payload, signature := d.signature } : DecodedToken) = m := by
    simpa using hm
  refine ⟨rfl, rfl, ?_, fun k hk => ?_, ?_⟩
  · simpa [objMembers] using lookupKey_setKey_self (objMembers d.header) _ a
  · simpa [objMembers] using lookupKey_setKey_ne (objMembers d.header) a hk
  · simpa [objMembers] using setKey_keys (objMembers d.header) "alg".toList a

/-- Witness for C7 at a concrete decoded token and index 3 (candidate
`null`): the spec-scenario token with header `{"alg":"HS256"}`. -/
theorem noneAlgMutations_spec_witness :
    (noneAlgMutations ⟨.obj [("alg".toList, .str "HS256".toList)],
                       .obj [("sub".toList, .str "1234".toList)],
                       some "sig123".toList⟩).length = 6 ∧
    lookupKey "alg".toList
        (objMembers (Json.obj [("alg".toList, Json.null)])) = some Json.null ∧
    (Json.obj [("sub".toList, Json.str "1234".toList)]) =
      Json.obj [("sub".toList, Json.str "1234".toList)] := by
  have h := noneAlgMutations_spec ⟨.obj [("alg".toList, .str "HS256".toList)],
    .obj [("sub".toList, .str "1234".toList)], some "sig123".toList⟩
  have h3 := h.2 3 Json.null
    ⟨.obj [("alg".toList, Json.null)],
     .obj [("sub".toList, .str "1234".toList)], some "sig123".toList⟩ rfl rfl
  exact ⟨h.1, h3.2.2.1, h3.1⟩

/-! ### Claim C8 — the SSRF header strategy -/

/-- Claim C8: for every decoded token and configured correlation base URL,
the SSRF strategy produces exactly 3 mutations, one per property of the
fixed ordered list `["jku", "x5u", "kid"]`; the i-th mutation's header has
that property set to the string `url ++ "?type=jwtssrftest&key=" ++ prop`
(other header fields untouched), and payload and signature are unchanged. -/
theorem ssrfMutations_spec (url : Str) (d : DecodedToken) :
    (ssrfMutations url d).length = 3 ∧
    ∀ i prop m, ssrfProps.get? i = some prop →
      (ssrfMutations url d).get? i = some m →
      m.payload = d.payload ∧ m.signature = d.signature ∧
      lookupKey prop (objMembers m.header) =
        some (.str (url ++ "?type=jwtssrftest&key=".toList ++ prop)) ∧
      ∀ k, k ≠ prop →
        lookupKey k (objMembers m.header) = lookupKey k (objMembers d.header) := by
  refine ⟨rfl, fun i prop m hp hm => ?_⟩
  rw [ssrfMutations, List.get?_map, hp, Option.map_some'] at hm
  obtain rfl : ({ header := .obj (setKey (objMembers d.header) prop
                    (.str (url ++ "?type=jwtssrftest&key=".toList ++ prop))),
                  payload := d.payload, signature := d.signature } : DecodedToken) = m := by
    simpa using hm
  refine ⟨rfl, rfl, ?_, fun k hk => ?_⟩
  · simpa [objMembers] using lookupKey_setKey_self (objMembers d.header) prop _
  · simpa [objMembers] using lookupKey_setKey_ne (objMembers d.header) _ hk

/-- Witness for C8 at the shipped `WEBHOOK_URL`, a concrete decoded token
and index 0 (property `jku`). -/
theorem ssrfMutations_spec_witness :
    (ssrfMutations WEBHOOK_URL ⟨.obj [("alg".toList, .str "HS256".toList)],
        .obj [("sub".toList, .str "1234".toList)], some "sig123".toList⟩).length = 3 ∧
    lookupKey "jku".toList
        (objMembers (Json.obj [("alg".toList, Json.str "HS256".toList),
          ("jku".toList,
           Json.str (WEBHOOK_URL ++ "?type=jwtssrftest&key=".toList ++ "jku".toList))])) =
      some (Json.str (WEBHOOK_URL ++ "?type=jwtssrftest&key=".toList ++ "jku".toList)) := by
  have h := ssrfMutations_spec WEBHOOK_URL ⟨.obj [("alg".toList, .str "HS256".toList)],
    .obj [("sub".toList, .str "1234".toList)], some "sig123".toList⟩
  have h0 := h.2 0 "jku".toList
    ⟨.obj [("alg".toList, .str "HS256".toList),
      ("jku".toList,
       .str (WEBHOOK_URL ++ "?type=jwtssrftest&key=".toList ++ "jku".toList))],
     .obj [("sub".toList, .str "1234".toList)], some "sig123".toList⟩ rfl rfl
  exact ⟨h.1, h0.2.2.1⟩

/-! ### Claim C9 — the payload-claim strategy -/

/-- Claim C9: for every decoded token whose payload keys are distinct (as
keys of a real JS object are), the payload-claim loop produces exactly one
mutation per payload key, iterating the keys in their original order; the
i-th mutation's payload is the input payload with the i-th claim's value
replaced by `value + 1` — in particular, when that value is numeric, the
claim now holds the incremented number — and all other payload claims, the
header, and the signature are unchanged. -/
theorem propModMutations_spec (d : DecodedToken)
    (hnd : ((objMembers d.payload).map Prod.fst).Nodup) :
    (propModMutations d).length = (objMembers d.payload).length ∧
    ∀ i k v m, (objMembers d.payload).get? i = some (k, v) →
      (propModMutations d).get? i = some m →
      m.header = d.header ∧ m.signature = d.signature ∧
      objMembers m.payload = setKey (objMembers d.payload) k (jsAdd1 v) ∧
      (∀ n : Int, v = .num n →
        lookupKey k (objMembers m.payload) = some (.num (n + 1))) ∧
      ∀ k2, k2 ≠ k →
        lookupKey k2 (objMembers m.payload) = lookupKey k2 (objMembers d.payload) := by
  have huniq : uniqMembers (objMembers d.payload) = objMembers d.payload :=
    uniqMembers_of_nodup hnd
  constructor
  · simp [propModMutations, huniq]
  · intro i k v m hkv hm
    rw [propModMutations, huniq, List.get?_map, hkv, Option.map_some'] at hm
    obtain rfl : ({ header := d.header,
                    payload := .obj (setKey (objMembers d.payload) k (jsAdd1 v)),
                    signature := d.signature } : DecodedToken) = m := by
      simpa using hm
    refine ⟨rfl, rfl, rfl, fun n hv => ?_, fun k2 hk2 => ?_⟩
    · subst hv
      simpa [objMembers, jsAdd1] using
        lookupKey_setKey_self (objMembers d.payload) k (jsAdd1 (.num n))
    · simpa [objMembers] using lookupKey_setKey_ne (objMembers d.payload) _ hk2

/-- Witness for C9 at a concrete decoded token and index 1 (the numeric
claim `exp`). -/
theorem propModMutations_spec_witness :
    (propModMutations ⟨.obj [("alg".toList, .str "HS256".toList)],
        .obj [("sub".toList, .str "1234".toList), ("exp".toList, .num 100)],
        some "sig123".toList⟩).length = 2 ∧
    lookupKey "exp".toList
        (objMembers (Json.obj [("sub".toList, Json.str "1234".toList),
          ("exp".toList, Json.num 101)])) = some (Json.num 101) ∧
    lookupKey "sub".toList
        (objMembers (Json.obj [("sub".toList, Json.str "1234".toList),
          ("exp".toList, Json.num 101)])) =
      lookupKey "sub".toList
        (objMembers (Json.obj [("sub".toList, Json.str "1234".toList),
          ("exp".toList, Json.num 100)])) := by
  have h := propModMutations_spec ⟨.obj [("alg".toList, .str "HS256".toList)],
    .obj [("sub".toList, .str "1234".toList), ("exp".toList, .num 100)],
    some "sig123".toList⟩ (by decide)
  have h1 := h.2 1 "exp".toList (.num 100)
    ⟨.obj [("alg".toList, .str "HS256".toList)],
     .obj [("sub".toList, .str "1234".toList), ("exp".toList, .num 101)],
     some "sig123".toList⟩ rfl rfl
  exact ⟨h.1, h1.2.2.2.1 100 rfl, h1.2.2.2.2 "sub".toList (by decide)⟩

/-! ### Claim C1 — the substitution step -/

/-- Results of any of the three mutation loops are always first-occurrence
replacements of the original token in the input. -/
theorem subst_results_shape (muts : List DecodedToken) (tok input : Str)
    (variances : Bool) (r : Str)
    (hr : r ∈ muts.flatMap fun m =>
      if variances then
        (createVariants (generateJWT m.header m.payload (sigOrDefault m.signature) true)).map
          fun v => jsReplaceFirst input tok v
      else [jsReplaceFirst input tok
              (generateJWT m.header m.payload (sigOrDefault m.signature) true)]) :
    ∃ v, r = jsReplaceFirst input tok v := by
  simp only [List.mem_flatMap] at hr
  obtain ⟨m, -, hr⟩ := hr
  by_cases hv : variances
  · simp only [hv, if_true, List.mem_map] at hr
    obtain ⟨v, -, rfl⟩ := hr
    exact ⟨v, rfl⟩
  · simp [hv] at hr
    exact ⟨_, hr⟩

/-- Concrete original token for the C1 counterexample. -/
def c1Tok : Str := "eyJhIjoxfQ.eyJiIjoyfQ.s".toList

/-- Concrete request text containing the original token twice. -/
def c1Input : Str :=
  ("A: " ++ "eyJhIjoxfQ.eyJiIjoyfQ.s" ++ " and " ++ "eyJhIjoxfQ.eyJiIjoyfQ.s").toList

/-- The decoded form of `c1Tok`. -/
def c1Dec : DecodedToken :=
  ⟨.obj [("a".toList, .num 1)], .obj [("b".toList, .num 2)], some "s".toList⟩

/-- The first candidate token the none-algorithm strategy emits for
`c1Dec` (candidate "none", variant 0). -/
def c1Cand : Str := "eyJhIjoxLCJhbGciOiJub25lIn0.eyJiIjoyfQ.s".toList

/-- Claim C1, counterexample: on a request containing the original token
twice, the engine's first emitted result is the `replace` (first occurrence
only) of the input, which differs from the `replaceAll` the claim requires
— the second occurrence of the original token survives in the output. -/
theorem substitution_counterexample :
    parseJWT c1Tok = some c1Dec ∧
    (testNoneAlgorithm c1Dec c1Tok c1Input true).head? =
      some (jsReplaceFirst c1Input c1Tok c1Cand) ∧
    jsReplaceFirst c1Input c1Tok c1Cand ≠ jsReplaceAll c1Input c1Tok c1Cand ∧
    jsIncludes (jsReplaceFirst c1Input c1Tok c1Cand) c1Tok = true ∧
    jsIncludes (jsReplaceAll c1Input c1Tok c1Cand) c1Tok = false :=
  ⟨rfl, rfl, by decide, by decide, by decide⟩

/-- Claim C1 as amended: for every request text, original token literal and
strategy configuration, every result the mutation loops emit replaces only
the first literal occurrence of the original token — the text before it and
everything after it (later occurrences included) pass through unchanged. -/
theorem substitution_first_occurrence_only
    (d : DecodedToken) (tok input a b : Str) (variances : Bool) (url : Str)
    (hsplit : splitFirst tok input = some (a, b)) :
    input = a ++ tok ++ b ∧
    (∀ r ∈ testNoneAlgorithm d tok input variances, ∃ v, r = a ++ v ++ b) ∧
    (∀ r ∈ testPropertyModification d tok input variances, ∃ v, r = a ++ v ++ b) ∧
    (∀ r ∈ testSSRF url d tok input variances, ∃ v, r = a ++ v ++ b) := by
  refine ⟨splitFirst_eq_append hsplit, fun r hr => ?_, fun r hr => ?_, fun r hr => ?_⟩
  · obtain ⟨v, rfl⟩ := subst_results_shape (noneAlgMutations d) tok input variances r hr
    exact ⟨v, jsReplaceFirst_of_splitFirst v hsplit⟩
  · obtain ⟨v, rfl⟩ := subst_results_shape (propModMutations d) tok input variances r hr
    exact ⟨v, jsReplaceFirst_of_splitFirst v hsplit⟩
  · obtain ⟨v, rfl⟩ := subst_results_shape (ssrfMutations url d) tok input variances r hr
    exact ⟨v, jsReplaceFirst_of_splitFirst v hsplit⟩

/-- Witness for the amended C1 at a concrete split of a two-occurrence
request. -/
theorem substitution_first_occurrence_only_witness :
    ("A: " ++ "eyJhIjoxfQ.eyJiIjoyfQ.s" ++ " and " ++ "eyJhIjoxfQ.eyJiIjoyfQ.s").toList =
      "A: ".toList ++ "eyJhIjoxfQ.eyJiIjoyfQ.s".toList ++
        " and eyJhIjoxfQ.eyJiIjoyfQ.s".toList :=
  (substitution_first_occurrence_only
    ⟨.obj [("a".toList, .num 1)], .obj [("b".toList, .num 2)], some "s".toList⟩
    "eyJhIjoxfQ.eyJiIjoyfQ.s".toList
    ("A: " ++ "eyJhIjoxfQ.eyJiIjoyfQ.s" ++ " and " ++ "eyJhIjoxfQ.eyJiIjoyfQ.s").toList
    "A: ".toList " and eyJhIjoxfQ.eyJiIjoyfQ.s".toList true WEBHOOK_URL
    (by decide)).1

/-! ### Claim C3 — encoding -/

/-- Member of the URL-safe base64 alphabet (RFC 4648 §5). -/
def urlSafeB64Char (c : Char) : Bool := c.isAlphanum || c = '-' || c = '_'

/-- Member of the standard base64 alphabet (RFC 4648 §4, '=' aside). -/
def stdB64Char (c : Char) : Bool := c.isAlphanum || c = '+' || c = '/'

theorem b64Chr_mem (n : Nat) : b64Chr n ∈ b64Alphabet := by
  rw [b64Chr]
  rcases Nat.lt_or_ge n b64Alphabet.length with h | h
  · rw [List.getD_eq_get _ _ h]
    exact List.get_mem _ _ _
  · rw [List.getD_eq_default _ _ h]
    decide

theorem b64Alphabet_std : ∀ c ∈ b64Alphabet, stdB64Char c = true ∧ c ≠ '=' ∧ c ≠ '.' := by
  decide

theorem b64Chr_ne_eq (n : Nat) : b64Chr n ≠ '=' :=
  (b64Alphabet_std _ (b64Chr_mem n)).2.1

theorem b64Chr_ne_dot (n : Nat) : b64Chr n ≠ '.' :=
  (b64Alphabet_std _ (b64Chr_mem n)).2.2

theorem filter_eq_cons_of_ne {c : Char} (s : Str) (h : c ≠ '=') :
    (c :: s).filter (fun x => x ≠ '=') = c :: s.filter (fun x => x ≠ '=') := by
  simp [List.filter_cons, h]

theorem filter_b64Enc (bs : List Nat) :
    (b64Enc bs).filter (fun c => c ≠ '=') = b64EncNoPad bs := by
  induction bs using b64Enc.induct with
  | case1 => rfl
  | case2 b0 =>
    rw [b64Enc, b64EncNoPad, filter_eq_cons_of_ne _ (b64Chr_ne_eq _),
      filter_eq_cons_of_ne _ (b64Chr_ne_eq _)]
    rfl
  | case3 b0 b1 =>
    rw [b64Enc, b64EncNoPad, filter_eq_cons_of_ne _ (b64Chr_ne_eq _),
      filter_eq_cons_of_ne _ (b64Chr_ne_eq _), filter_eq_cons_of_ne _ (b64Chr_ne_eq _)]
    rfl
  | case4 b0 b1 b2 rest ih =>
    rw [b64Enc, b64EncNoPad, filter_eq_cons_of_ne _ (b64Chr_ne_eq _),
      filter_eq_cons_of_ne _ (b64Chr_ne_eq _), filter_eq_cons_of_ne _ (b64Chr_ne_eq _),
      filter_eq_cons_of_ne _ (b64Chr_ne_eq _), ih]

theorem b64EncNoPad_all_std (bs : List Nat) :
    (b64EncNoPad bs).all stdB64Char = true := by
  induction bs using b64EncNoPad.induct with
  | case1 => rfl
  | case2 b0 =>
    simp [b64EncNoPad, List.all, (b64Alphabet_std _ (b64Chr_mem _)).1]
  | case3 b0 b1 =>
    simp [b64EncNoPad, List.all, (b64Alphabet_std _ (b64Chr_mem _)).1]
  | case4 b0 b1 b2 rest ih =>
    simp [b64EncNoPad, List.all, (b64Alphabet_std _ (b64Chr_mem _)).1, ih]

theorem jsReplaceAllAux_filter (fuel : Nat) :
    ∀ s : Str, s.length ≤ fuel →
      jsReplaceAllAux ['='] [] fuel s = s.filter (fun c => c ≠ '=') := by
  induction fuel with
  | zero =>
    intro s hlen
    rw [List.length_eq_zero.mp (Nat.le_zero.mp hlen)]
    rfl
  | succ fuel ih =>
    intro s hlen
    cases s with
    | nil => rfl
    | cons c cs =>
      have hcs : cs.length ≤ fuel := Nat.succ_le_succ_iff.mp hlen
      by_cases hc : c = '='
      · subst hc
        simp [jsReplaceAllAux, List.isPrefixOf, List.filter, ih cs hcs]
      · have hc2 : ¬ (('=' : Char) = c) := fun e => hc e.symm
        simp [jsReplaceAllAux, List.isPrefixOf, hc, hc2, List.filter, ih cs hcs]

theorem jsReplaceAll_eq_filter (s : Str) :
    jsReplaceAll s ['='] [] = s.filter (fun c => c ≠ '=') :=
  jsReplaceAllAux_filter s.length s le_rfl

/-- Claim C3, counterexample: `generateJWT` uses standard base64, so a header
whose JSON text base64-encodes through the '+' code point produces a first
segment that is not drawn from the URL-safe alphabet, where the claim
requires every character of the first two segments to be URL-safe. -/
theorem generateJWT_not_urlsafe_counterexample :
    generateJWT (.obj [("a".toList, .str "xx>".toList)]) (.obj []) [] true =
      "eyJhIjoieHg+In0.e30.".toList ∧
    ((jsSplit "eyJhIjoieHg+In0.e30.".toList '.').getD 0 []).all urlSafeB64Char = false :=
  ⟨rfl, by decide⟩

/-- Claim C3 as amended: `encode` serializes header and payload to JSON text
with key order equal to insertion order (a mutated key already present is
overwritten in place), encodes each with **standard** base64 (every
character of the first two segments lies in the standard alphabet
`A-Za-z0-9+/`, so '+' and '/' can occur and the segments are not URL-safe),
joins them and the raw signature with dots, and, when stripPadding is true,
removes every '=' character from the whole token — the base64 padding and
any '=' the raw signature happens to contain. -/
theorem generateJWT_spec (header payload : Json) (sig : Str) :
    generateJWT header payload sig true =
      b64EncNoPad (utf8Enc (jsonStringify header)) ++
        '.' :: (b64EncNoPad (utf8Enc (jsonStringify payload)) ++
          '.' :: sig.filter (fun c => c ≠ '=')) ∧
    (b64EncNoPad (utf8Enc (jsonStringify header))).all stdB64Char = true ∧
    (b64EncNoPad (utf8Enc (jsonStringify payload))).all stdB64Char = true ∧
    ∀ (m : List (Str × Json)) (k : Str) (v : Json),
      (setKey m k v).map Prod.fst =
        (if k ∈ m.map Prod.fst then m.map Prod.fst else m.map Prod.fst ++ [k]) := by
  refine ⟨?_, b64EncNoPad_all_std _, b64EncNoPad_all_std _, setKey_keys⟩
  show jsReplaceAll _ ['='] [] = _
  rw [jsReplaceAll_eq_filter, List.filter_append, List.filter_append,
    filter_eq_cons_of_ne _ (by decide), filter_eq_cons_of_ne _ (by decide),
    filter_b64Enc, filter_b64Enc]
  simp

/-! ### Claim C5, part 1 — base64 round trip -/

theorem b64Val_b64Chr : ∀ n, n < 64 → b64Val (b64Chr n) = some n := by decide

theorem b64_roundtrip : ∀ bs : List Nat, (∀ b ∈ bs, b < 256) →
    b64Dec (b64EncNoPad bs) = bs := by
  intro bs
  rw [b64Dec]
  induction bs using b64EncNoPad.induct with
  | case1 => intro _; rfl
  | case2 b0 =>
    intro hb
    have h0 : b0 < 256 := hb b0 (by simp)
    have e1 := b64Val_b64Chr (b0 / 4) (by omega)
    have e2 := b64Val_b64Chr (b0 % 4 * 16) (by omega)
    simp only [b64EncNoPad, List.filterMap_cons, e1, e2, List.filterMap_nil,
      sextetsToBytes]
    congr 1
    omega
  | case3 b0 b1 =>
    intro hb
    have h0 : b0 < 256 := hb b0 (by simp)
    have h1 : b1 < 256 := hb b1 (by simp)
    have e1 := b64Val_b64Chr (b0 / 4) (by omega)
    have e2 := b64Val_b64Chr (b0 % 4 * 16 + b1 / 16) (by omega)
    have e3 := b64Val_b64Chr (b1 % 16 * 4) (by omega)
    simp only [b64EncNoPad, List.filterMap_cons, e1, e2, e3, List.filterMap_nil,
      sextetsToBytes]
    congr 1
    · omega
    · congr 1
      omega
  | case4 b0 b1 b2 rest ih =>
    intro hb
    have h0 : b0 < 256 := hb b0 (by simp)
    have h1 : b1 < 256 := hb b1 (by simp)
    have h2 : b2 < 256 := hb b2 (by simp)
    have hrest : ∀ b ∈ rest, b < 256 := fun b m => hb b (by simp [m])
    have e1 := b64Val_b64Chr (b0 / 4) (by omega)
    have e2 := b64Val_b64Chr (b0 % 4 * 16 + b1 / 16) (by omega)
    have e3 := b64Val_b64Chr (b1 % 16 * 4 + b2 / 64) (by omega)
    have e4 := b64Val_b64Chr (b2 % 64) (by omega)
    simp only [b64EncNoPad, List.filterMap_cons, e1, e2, e3, e4]
    rw [show ∀ x1 x2 x3 x4 t, (x1 :: x2 :: x3 :: x4 :: t : List Nat) =
      [x1, x2, x3, x4] ++ t from fun _ _ _ _ _ => rfl]
    rw [show ∀ t, sextetsToBytes ([b0 / 4, b0 % 4 * 16 + b1 / 16,
      b1 % 16 * 4 + b2 / 64, b2 % 64] ++ t) =
      (b0 / 4 * 4 + (b0 % 4 * 16 + b1 / 16) / 16) ::
      ((b0 % 4 * 16 + b1 / 16) % 16 * 16 + (b1 % 16 * 4 + b2 / 64) / 4) ::
      ((b1 % 16 * 4 + b2 / 64) % 4 * 64 + b2 % 64) :: sextetsToBytes t
      from fun _ => rfl]
    rw [ih hrest]
    congr 1
    · omega
    · congr 1
      · omega
      · congr 1
        omega

/-! ### Claim C5, part 2 — UTF-8 round trip -/

theorem char_valid_ranges (c : Char) :
    c.toNat < 0xD800 ∨ (0xE000 ≤ c.toNat ∧ c.toNat < 0x110000) := by
  have h := c.valid
  unfold UInt32.isValidChar Nat.isValidChar at h
  rcases h with h | ⟨h1, h2⟩
  · exact Or.inl h
  · exact Or.inr ⟨h1, h2⟩

theorem utf8EncChar_lt_256 (c : Char) : ∀ b ∈ utf8EncChar c, b < 256 := by
  have hval := char_valid_ranges c
  intro b hb
  rw [utf8EncChar] at hb
  by_cases h1 : c.toNat < 0x80
  · rw [if_pos h1] at hb
    simp only [List.mem_singleton] at hb
    omega
  · rw [if_neg h1] at hb
    by_cases h2 : c.toNat < 0x800
    · rw [if_pos h2] at hb
      simp only [List.mem_cons, List.mem_singleton] at hb
      rcases hb with rfl | rfl | h
      · omega
      · omega
      · simp at h
    · rw [if_neg h2] at hb
      by_cases h3 : c.toNat < 0x10000
      · rw [if_pos h3] at hb
        simp only [List.mem_cons, List.mem_singleton] at hb
        rcases hb with rfl | rfl | rfl | h
        · omega
        · omega
        · omega
        · simp at h
      · rw [if_neg h3] at hb
        simp only [List.mem_cons, List.mem_singleton] at hb
        rcases hb with rfl | rfl | rfl | rfl | h
        · omega
        · omega
        · omega
        · omega
        · simp at h

theorem utf8Enc_lt_256 (s : Str) : ∀ b ∈ utf8Enc s, b < 256 := by
  induction s with
  | nil => intro b hb; simp [utf8Enc] at hb
  | cons c cs ih =>
    intro b hb
    rw [utf8Enc, List.foldr_cons] at hb
    rcases List.mem_append.mp hb with h | h
    · exact utf8EncChar_lt_256 c b h
    · exact ih b h

theorem char_ofNat_eq (n : Nat) (c : Char) (h : n = c.toNat) : Char.ofNat n = c := by
  rw [h, Char.ofNat_toNat]

theorem utf8DecAux_encChar (fuel : Nat) (c : Char) (bs : List Nat) :
    utf8DecAux (fuel + 1) (utf8EncChar c ++ bs) = c :: utf8DecAux fuel bs := by
  have hval := char_valid_ranges c
  rw [utf8EncChar]
  by_cases h1 : c.toNat < 0x80
  · rw [if_pos h1]
    show utf8DecAux (fuel + 1) (c.toNat :: bs) = _
    simp only [utf8DecAux, h1, if_true, ite_true]
    rw [Char.ofNat_toNat]
  · rw [if_neg h1]
    by_cases h2 : c.toNat < 0x800
    · rw [if_pos h2]
      have g1 : ¬ (0xC0 + c.toNat / 64 < 0x80) := by omega
      have g2 : ¬ (0xC0 + c.toNat / 64 < 0xC2) := by omega
      have g3 : 0xC0 + c.toNat / 64 < 0xE0 := by omega
      have g4 : utf8Cont (0x80 + c.toNat % 64) = true := by
        simp only [utf8Cont, Bool.and_eq_true, decide_eq_true_eq]
        omega
      show utf8DecAux (fuel + 1) ((0xC0 + c.toNat / 64) :: (0x80 + c.toNat % 64) :: bs) = _
      simp only [utf8DecAux, g1, g2, g3, g4, if_false, if_true, ite_true, ite_false,
        eq_self_iff_true]
      congr 1
      exact char_ofNat_eq _ _ (by omega)
    · rw [if_neg h2]
      by_cases h3 : c.toNat < 0x10000
      · rw [if_pos h3]
        have g1 : ¬ (0xE0 + c.toNat / 4096 < 0x80) := by omega
        have g2 : ¬ (0xE0 + c.toNat / 4096 < 0xC2) := by omega
        have g3 : ¬ (0xE0 + c.toNat / 4096 < 0xE0) := by omega
        have g4 : 0xE0 + c.toNat / 4096 < 0xF0 := by omega
        have g5 : (utf8Cont (0x80 + c.toNat / 64 % 64) && utf8Cont (0x80 + c.toNat % 64) &&
            (0xE0 + c.toNat / 4096 ≠ 0xE0 || 0xA0 ≤ 0x80 + c.toNat / 64 % 64) &&
            (0xE0 + c.toNat / 4096 ≠ 0xED || 0x80 + c.toNat / 64 % 64 < 0xA0)) = true := by
          simp only [utf8Cont, Bool.and_eq_true, Bool.or_eq_true, decide_eq_true_eq]
          omega
        show utf8DecAux (fuel + 1) ((0xE0 + c.toNat / 4096) ::
          (0x80 + c.toNat / 64 % 64) :: (0x80 + c.toNat % 64) :: bs) = _
        rw [utf8DecAux, if_neg g1, if_neg g2, if_neg g3, if_pos g4]
        show (if _ = true then _ else _) = _
        rw [if_pos g5]
        congr 1
        exact char_ofNat_eq _ _ (by omega)
      · rw [if_neg h3]
        have g1 : ¬ (0xF0 + c.toNat / 262144 < 0x80) := by omega
        have g2 : ¬ (0xF0 + c.toNat / 262144 < 0xC2) := by omega
        have g3 : ¬ (0xF0 + c.toNat / 262144 < 0xE0) := by omega
        have g4 : ¬ (0xF0 + c.toNat / 262144 < 0xF0) := by omega
        have g5 : 0xF0 + c.toNat / 262144 < 0xF5 := by omega
        have g6 : (utf8Cont (0x80 + c.toNat / 4096 % 64) && utf8Cont (0x80 + c.toNat / 64 % 64) &&
            utf8Cont (0x80 + c.toNat % 64) &&
            (0xF0 + c.toNat / 262144 ≠ 0xF0 || 0x90 ≤ 0x80 + c.toNat / 4096 % 64) &&
            (0xF0 + c.toNat / 262144 ≠ 0xF4 || 0x80 + c.toNat / 4096 % 64 < 0x90)) = true := by
          simp only [utf8Cont, Bool.and_eq_true, Bool.or_eq_true, decide_eq_true_eq]
          omega
        show utf8DecAux (fuel + 1) ((0xF0 + c.toNat / 262144) :: (0x80 + c.toNat / 4096 % 64) ::
          (0x80 + c.toNat / 64 % 64) :: (0x80 + c.toNat % 64) :: bs) = _
        rw [utf8DecAux, if_neg g1, if_neg g2, if_neg g3, if_neg g4, if_pos g5]
        show (if _ = true then _ else _) = _
        rw [if_pos g6]
        congr 1
        exact char_ofNat_eq _ _ (by omega)

theorem utf8DecAux_enc (s : Str) : ∀ fuel, s.length ≤ fuel →
    utf8DecAux fuel (utf8Enc s) = s := by
  induction s with
  | nil =>
    intro fuel _
    cases fuel <;> rfl
  | cons c cs ih =>
    intro fuel hlen
    cases fuel with
    | zero => simp at hlen
    | succ f =>
      have hsplit2 : utf8Enc (c :: cs) = utf8EncChar c ++ utf8Enc cs := rfl
      rw [hsplit2, utf8DecAux_encChar, ih f (by simpa using hlen)]

theorem utf8Enc_length_ge (s : Str) : s.length ≤ (utf8Enc s).length := by
  induction s with
  | nil => simp [utf8Enc]
  | cons c cs ih =>
    have hsplit2 : utf8Enc (c :: cs) = utf8EncChar c ++ utf8Enc cs := rfl
    rw [hsplit2, List.length_append, List.length_cons]
    have hc : 1 ≤ (utf8EncChar c).length := by
      rw [utf8EncChar]
      split
      · simp
      · split
        · simp
        · split <;> simp
    omega

theorem utf8_roundtrip (s : Str) : utf8Dec (utf8Enc s) = s := by
  rw [utf8Dec]
  exact utf8DecAux_enc s _ (utf8Enc_length_ge s)

/-! ### Claim C5, part 3 — decimal literals round trip -/

/-- Character of one decimal digit. -/
def digitChar10 (d : Nat) : Char := Char.ofNat ('0'.toNat + d)

theorem digitChar10_isDigit : ∀ d, d < 10 → isDigit (digitChar10 d) = true := by decide

theorem digitChar10_toNat : ∀ d, d < 10 → (digitChar10 d).toNat = 48 + d := by decide

theorem digitChar10_ne_zero : ∀ d, d < 10 → d ≠ 0 → digitChar10 d ≠ '0' := by decide

theorem natDigitsAux_eq : ∀ fuel n acc, n < 10 ^ (fuel + 1) →
    natDigitsAux (fuel + 1) n acc =
      (if n = 0 then ['0'] else (Nat.digits 10 n).reverse.map digitChar10) ++ acc := by
  intro fuel
  induction fuel with
  | zero =>
    intro n acc h
    have h10 : n < 10 := by simpa using h
    simp only [natDigitsAux, if_pos h10, Nat.mod_eq_of_lt h10]
    by_cases h0 : n = 0
    · subst h0
      rfl
    · rw [if_neg h0, Nat.digits_of_lt 10 n h0 h10]
      rfl
  | succ fuel ih =>
    intro n acc h
    by_cases h10 : n < 10
    · simp only [natDigitsAux, if_pos h10, Nat.mod_eq_of_lt h10]
      by_cases h0 : n = 0
      · subst h0
        rfl
      · rw [if_neg h0, Nat.digits_of_lt 10 n h0 h10]
        rfl
    · have h0 : n ≠ 0 := by omega
      have hdiv : n / 10 < 10 ^ (fuel + 1) := by
        rw [Nat.div_lt_iff_lt_mul (by omega)]
        calc n < 10 ^ (fuel + 1 + 1) := h
        _ = 10 ^ (fuel + 1) * 10 := by ring
      have hd0 : n / 10 ≠ 0 := by
        have : 10 ≤ n := by omega
        have := Nat.one_le_div_iff (by omega : 0 < 10) |>.mpr this
        omega
      have step : natDigitsAux (fuel + 1 + 1) n acc =
          natDigitsAux (fuel + 1) (n / 10) (digitChar10 (n % 10) :: acc) := by
        conv_lhs => rw [natDigitsAux]
        rw [if_neg h10]
        rfl
      rw [step, ih (n / 10) _ hdiv, if_neg hd0,
        Nat.digits_def' (by norm_num : (1:Nat) < 10) (by omega : 0 < n), if_neg h0]
      simp

theorem natToStr_eq (n : Nat) :
    natToStr n = if n = 0 then ['0'] else (Nat.digits 10 n).reverse.map digitChar10 := by
  have h : n < 10 ^ (n + 1) := by
    calc n < 10 ^ n := Nat.lt_pow_self (by norm_num) n
    _ ≤ 10 ^ (n + 1) := Nat.pow_le_pow_right (by norm_num) (by omega)
  simpa using natDigitsAux_eq n n [] h

theorem natToStr_all_digits (n : Nat) : ∀ c ∈ natToStr n, isDigit c = true := by
  rw [natToStr_eq]
  split
  · intro c hc
    simp only [List.mem_singleton] at hc
    subst hc
    decide
  · intro c hc
    obtain ⟨d, hd, rfl⟩ := List.mem_map.mp hc
    have : d < 10 := Nat.digits_lt_base (by norm_num) (List.mem_reverse.mp hd)
    exact digitChar10_isDigit d this

theorem natToStr_ne_nil (n : Nat) : natToStr n ≠ [] := by
  rw [natToStr_eq]
  split
  · simp
  · rename_i h0
    simp only [ne_eq, List.map_eq_nil_iff, List.reverse_eq_nil_iff]
    exact Nat.digits_ne_nil_iff_ne_zero.mpr h0

theorem natToStr_head_ne_zero (n : Nat) (hn : n ≠ 0) (c : Char) (t : Str)
    (h : natToStr n = c :: t) : c ≠ '0' := by
  rw [natToStr_eq, if_neg hn] at h
  have hne : Nat.digits 10 n ≠ [] := Nat.digits_ne_nil_iff_ne_zero.mpr hn
  have hsplit2 := (List.dropLast_append_getLast hne).symm
  rw [hsplit2, List.reverse_append] at h
  simp only [List.reverse_cons, List.reverse_nil, List.nil_append, List.map_cons,
    List.cons_append, List.singleton_append, List.cons.injEq] at h
  have hlast := Nat.getLast_digit_ne_zero 10 hn
  have hlt : (Nat.digits 10 n).getLast hne < 10 :=
    Nat.digits_lt_base (by norm_num) (List.getLast_mem hne)
  rw [← h.1]
  exact digitChar10_ne_zero _ hlt hlast

theorem digitsVal_rev_map (ds : List Nat) (hds : ∀ d ∈ ds, d < 10) :
    digitsVal (ds.reverse.map digitChar10) = Nat.ofDigits 10 ds := by
  induction ds with
  | nil => rfl
  | cons d rest ih =>
    have hd : d < 10 := hds d (by simp)
    have hrest : ∀ x ∈ rest, x < 10 := fun x m => hds x (by simp [m])
    rw [List.reverse_cons, List.map_append, digitsVal, List.foldl_append]
    have : digitsVal (rest.reverse.map digitChar10) = Nat.ofDigits 10 rest := ih hrest
    rw [digitsVal] at this
    rw [this, Nat.ofDigits_cons]
    simp only [List.map_cons, List.map_nil, List.foldl_cons, List.foldl_nil]
    rw [digitChar10_toNat d hd]
    have h48 : '0'.toNat = 48 := rfl
    rw [h48]
    omega

theorem digitsVal_natToStr (n : Nat) : digitsVal (natToStr n) = n := by
  rw [natToStr_eq]
  split
  · rename_i h0
    subst h0
    rfl
  · rw [digitsVal_rev_map _ (fun d m => Nat.digits_lt_base (by norm_num) m),
      Nat.ofDigits_digits]

theorem takeWhile_append_all {p : Char → Bool} :
    ∀ xs ys : Str, (∀ x ∈ xs, p x = true) →
      (xs ++ ys).takeWhile p = xs ++ ys.takeWhile p := by
  intro xs ys h
  induction xs with
  | nil => simp
  | cons x t ih =>
    have hx : p x = true := h x (by simp)
    have ht : ∀ y ∈ t, p y = true := fun y m => h y (by simp [m])
    simp [List.takeWhile_cons, hx, ih ht]

theorem dropWhile_append_all {p : Char → Bool} :
    ∀ xs ys : Str, (∀ x ∈ xs, p x = true) →
      (xs ++ ys).dropWhile p = ys.dropWhile p := by
  intro xs ys h
  induction xs with
  | nil => simp
  | cons x t ih =>
    have hx : p x = true := h x (by simp)
    have ht : ∀ y ∈ t, p y = true := fun y m => h y (by simp [m])
    simp [List.dropWhile_cons, hx, ih ht]

/-- Is the remaining input a legal stopping point after a serialized value
(end of input, or a separator/closer emitted by the serializer)? -/
def stopOk : Str → Bool
  | [] => true
  | c :: _ => c = ',' || c = '}' || c = ']'

theorem stopOk_head_facts {c : Char} {t : Str} (h : stopOk (c :: t) = true) :
    isDigit c = false ∧ c ≠ '.' ∧ c ≠ 'e' ∧ c ≠ 'E' ∧ jsonWs c = false := by
  simp only [stopOk, Bool.or_eq_true, decide_eq_true_eq] at h
  rcases h with (rfl | rfl) | rfl <;> exact ⟨rfl, by decide, by decide, by decide, rfl⟩

theorem takeWhile_stop {t : Str} (h : stopOk t = true) :
    t.takeWhile isDigit = [] := by
  cases t with
  | nil => rfl
  | cons c t2 => simp [List.takeWhile_cons, (stopOk_head_facts h).1]

theorem dropWhile_stop {t : Str} (h : stopOk t = true) :
    t.dropWhile isDigit = t := by
  cases t with
  | nil => rfl
  | cons c t2 => simp [List.dropWhile_cons, (stopOk_head_facts h).1]

theorem natToStr_shape (n : Nat) :
    ¬ ((natToStr n).head? = some '0' ∧ 2 ≤ (natToStr n).length) := by
  rintro ⟨hhead, hlen⟩
  by_cases h0 : n = 0
  · subst h0
    have h00 : natToStr 0 = ['0'] := rfl
    rw [h00] at hlen
    simp at hlen
  · cases hns : natToStr n with
    | nil => exact natToStr_ne_nil n hns
    | cons c t =>
      rw [hns] at hhead
      simp only [List.head?_cons, Option.some.injEq] at hhead
      exact natToStr_head_ne_zero n h0 _ _ hns hhead

theorem parseNatLit_natToStr (n : Nat) (rest : Str) (hrest : stopOk rest = true) :
    parseNatLit (natToStr n ++ rest) = some (n, rest) := by
  have hall := natToStr_all_digits n
  have htake : (natToStr n ++ rest).takeWhile isDigit = natToStr n := by
    rw [takeWhile_append_all _ _ hall, takeWhile_stop hrest, List.append_nil]
  have hdrop : (natToStr n ++ rest).dropWhile isDigit = rest := by
    rw [dropWhile_append_all _ _ hall, dropWhile_stop hrest]
  rw [parseNatLit]
  simp only [htake, hdrop]
  rw [if_neg (by simp [natToStr_ne_nil n]), if_neg (natToStr_shape n), digitsVal_natToStr]

theorem parseNumber_intToStr (n : Int) (rest : Str) (hstop : stopOk rest = true) :
    parseNumber (intToStr n ++ rest) = some (n, rest) := by
  have hafter : ∀ (m : Nat) (neg : Bool), parseNumAfter (m, rest) neg =
      some (if neg then -(m : Int) else (m : Int), rest) := by
    intro m neg
    cases rest with
    | nil => rfl
    | cons c t =>
      obtain ⟨-, hdot, he, hE, -⟩ := stopOk_head_facts hstop
      simp [parseNumAfter, hdot, he, hE]
  by_cases hneg : n < 0
  · rw [intToStr, if_pos hneg]
    show parseNumber ('-' :: (natToStr (-n).toNat ++ rest)) = _
    rw [parseNumber, parseNatLit_natToStr _ _ hstop, Option.some_bind, hafter]
    have he : ((-n).toNat : Int) = -n := Int.toNat_of_nonneg (by omega)
    simp only [if_true, ite_true, he, neg_neg]
  · rw [intToStr, if_neg hneg]
    cases hns : natToStr n.toNat with
    | nil => exact absurd hns (natToStr_ne_nil _)
    | cons c t =>
      have hc : isDigit c = true := natToStr_all_digits _ c (by rw [hns]; simp)
      have hcne : ¬ (c = '-') := fun e => by
        rw [e] at hc
        exact absurd hc (by decide)
      show parseNumber (c :: (t ++ rest)) = _
      rw [parseNumber.eq_def]
      split
      · rename_i rest2 heq
        injection heq with h1 _
        exact absurd h1 hcne
      · rw [show c :: (t ++ rest) = (c :: t) ++ rest from rfl, ← hns,
          parseNatLit_natToStr _ _ hstop, Option.some_bind, hafter]
        have he : (n.toNat : Int) = n := Int.toNat_of_nonneg (by omega)
        simp [he]

/-! ### Claim C5, part 4 — string literals round trip -/

theorem hexVal_hexDigit : ∀ n, n < 16 → hexVal (hexDigit n) = some n := by decide

theorem parseStrBody_escChar (fuel : Nat) (c : Char) (tail : Str) :
    parseStrBody (fuel + 1) (escapeChar c ++ tail) =
      (parseStrBody fuel tail).map fun pr => (c :: pr.1, pr.2) := by
  rw [escapeChar]
  by_cases h1 : c = '"'
  · subst h1
    rw [if_pos rfl]
    show parseStrBody (fuel + 1) ('\\' :: '"' :: tail) = _
    simp [parseStrBody]
  · rw [if_neg h1]
    by_cases h2 : c = '\\'
    · subst h2
      rw [if_pos rfl]
      show parseStrBody (fuel + 1) ('\\' :: '\\' :: tail) = _
      simp [parseStrBody]
    · rw [if_neg h2]
      by_cases h3 : c = '\x08'
      · subst h3
        rw [if_pos rfl]
        show parseStrBody (fuel + 1) ('\\' :: 'b' :: tail) = _
        simp [parseStrBody]
      · rw [if_neg h3]
        by_cases h4 : c = '\t'
        · subst h4
          rw [if_pos rfl]
          show parseStrBody (fuel + 1) ('\\' :: 't' :: tail) = _
          simp [parseStrBody]
        · rw [if_neg h4]
          by_cases h5 : c = '\n'
          · subst h5
            rw [if_pos rfl]
            show parseStrBody (fuel + 1) ('\\' :: 'n' :: tail) = _
            simp [parseStrBody]
          · rw [if_neg h5]
            by_cases h6 : c = '\x0c'
            · subst h6
              rw [if_pos rfl]
              show parseStrBody (fuel + 1) ('\\' :: 'f' :: tail) = _
              simp [parseStrBody]
            · rw [if_neg h6]
              by_cases h7 : c = '\r'
              · subst h7
                rw [if_pos rfl]
                show parseStrBody (fuel + 1) ('\\' :: 'r' :: tail) = _
                simp [parseStrBody]
              · rw [if_neg h7]
                by_cases h8 : c.toNat < 0x20
                · rw [if_pos h8]
                  show parseStrBody (fuel + 1)
                    ('\\' :: 'u' :: '0' :: '0' ::
                      hexDigit (c.toNat / 16) :: hexDigit (c.toNat % 16) :: tail) = _
                  have hv1 : hexVal (hexDigit (c.toNat / 16)) = some (c.toNat / 16) :=
                    hexVal_hexDigit _ (by omega)
                  have hv2 : hexVal (hexDigit (c.toNat % 16)) = some (c.toNat % 16) :=
                    hexVal_hexDigit _ (by omega)
                  have hs1 : ¬ (0xD800 ≤ c.toNat / 16 * 16 + c.toNat % 16 ∧
                      c.toNat / 16 * 16 + c.toNat % 16 ≤ 0xDBFF) := by
                    omega
                  have hs2 : ¬ (0xDC00 ≤ c.toNat / 16 * 16 + c.toNat % 16 ∧
                      c.toNat / 16 * 16 + c.toNat % 16 ≤ 0xDFFF) := by
                    omega
                  have hch : Char.ofNat (c.toNat / 16 * 16 + c.toNat % 16) = c :=
                    char_ofNat_eq _ _ (by omega)
                  simp only [parseStrBody, hv1, hv2]
                  simp only [show hexVal '0' = some 0 from rfl]
                  simp [hs1, hs2, hch]
                · rw [if_neg h8]
                  show parseStrBody (fuel + 1) (c :: tail) = _
                  rw [parseStrBody.eq_def]
                  simp [h1, h2, h8]

theorem foldr_esc_append (s : Str) (i t : Str) :
    (s.foldr (fun c acc => escapeChar c ++ acc) i) ++ t =
      s.foldr (fun c acc => escapeChar c ++ acc) (i ++ t) := by
  induction s with
  | nil => rfl
  | cons c s2 ih => simp [List.foldr_cons, List.append_assoc, ih]

theorem foldr_esc_length (s : Str) (i : Str) :
    s.length + i.length ≤ (s.foldr (fun c acc => escapeChar c ++ acc) i).length := by
  induction s with
  | nil => simp
  | cons c s2 ih =>
    have h1 : 1 ≤ (escapeChar c).length := by
      rw [escapeChar]
      repeat' split
      all_goals simp
    simp only [List.foldr_cons, List.length_append, List.length_cons]
    omega

theorem parseStrBody_esc (s : Str) : ∀ fuel rest, s.length < fuel →
    parseStrBody fuel (s.foldr (fun c acc => escapeChar c ++ acc) ('"' :: rest)) =
      some (s, rest) := by
  induction s with
  | nil =>
    intro fuel rest hlen
    cases fuel with
    | zero => omega
    | succ f =>
      show parseStrBody (f + 1) ('"' :: rest) = _
      simp [parseStrBody]
  | cons c s2 ih =>
    intro fuel rest hlen
    cases fuel with
    | zero => omega
    | succ f =>
      show parseStrBody (f + 1)
        (escapeChar c ++ s2.foldr (fun c acc => escapeChar c ++ acc) ('"' :: rest)) = _
      rw [parseStrBody_escChar, ih f rest (by simpa using hlen)]
      rfl

/-! ### Claim C5, part 5 — well-formed values and serializer head facts -/

mutual

/-- Does every object inside the value have pairwise-distinct keys?  This is
the shape of every value a real JS object graph (or `jsonParse`) produces. -/
def Json.wf : Json → Bool
  | .null => true
  | .bool _ => true
  | .num _ => true
  | .str _ => true
  | .arr es => Json.wfElems es
  | .obj ms => Json.wfMembers ms

/-- `Json.wf` on array elements. -/
def Json.wfElems : List Json → Bool
  | [] => true
  | e :: rest => Json.wf e && Json.wfElems rest

/-- `Json.wf` on object members: the head key is absent from the tail. -/
def Json.wfMembers : List (Str × Json) → Bool
  | [] => true
  | (k, v) :: rest => (rest.all fun kv => kv.1 ≠ k) && Json.wf v && Json.wfMembers rest

end

theorem isDigit_facts {c : Char} (h : isDigit c = true) :
    jsonWs c = false ∧ (c = ']') = False ∧ (c = '}') = False ∧
    (c = '{') = False ∧ (c = '[') = False ∧ (c = '"') = False ∧
    (c = 'n') = False ∧ (c = 't') = False ∧ (c = 'f') = False := by
  refine ⟨?_, ?_, ?_, ?_, ?_, ?_, ?_, ?_, ?_⟩
  · by_contra hws
    simp only [Bool.not_eq_false, jsonWs, Bool.or_eq_true, decide_eq_true_eq] at hws
    rcases hws with ((rfl | rfl) | rfl) | rfl <;> exact absurd h (by decide)
  all_goals exact eq_false fun e => by rw [e] at h; exact absurd h (by decide)

theorem intToStr_head (n : Int) : ∃ c t, intToStr n = c :: t ∧
    jsonWs c = false ∧ (c = ']') = False ∧ (c = '}') = False ∧
    (c = '{') = False ∧ (c = '[') = False ∧ (c = '"') = False ∧
    (c = 'n') = False ∧ (c = 't') = False ∧ (c = 'f') = False := by
  rw [intToStr]
  split
  · exact ⟨'-', _, rfl, rfl, by decide, by decide, by decide, by decide, by decide,
      by decide, by decide, by decide⟩
  · rename_i hneg
    cases hns : natToStr n.toNat with
    | nil => exact absurd hns (natToStr_ne_nil _)
    | cons c t =>
      have hc : isDigit c = true := natToStr_all_digits _ c (by rw [hns]; simp)
      obtain ⟨f0, f1, f2, f3, f4, f5, f6, f7, f8⟩ := isDigit_facts hc
      exact ⟨c, t, rfl, f0, f1, f2, f3, f4, f5, f6, f7, f8⟩

theorem stringify_head (v : Json) : ∃ c t, jsonStringify v = c :: t ∧
    jsonWs c = false ∧ (c = ']') = False ∧ (c = '}') = False := by
  cases v with
  | null => exact ⟨'n', _, rfl, rfl, by decide, by decide⟩
  | bool b =>
    cases b
    · exact ⟨'f', _, rfl, rfl, by decide, by decide⟩
    · exact ⟨'t', _, rfl, rfl, by decide, by decide⟩
  | num n =>
    obtain ⟨c, t, heq, f0, f1, f2, -⟩ := intToStr_head n
    exact ⟨c, t, heq, f0, f1, f2⟩
  | str s => exact ⟨'"', _, rfl, rfl, by decide, by decide⟩
  | arr es => exact ⟨'[', _, rfl, rfl, by decide, by decide⟩
  | obj ms => exact ⟨'{', _, rfl, rfl, by decide, by decide⟩

theorem skipWs_cons {c : Char} (t : Str) (h : jsonWs c = false) :
    skipWs (c :: t) = c :: t := by
  simp [skipWs, List.dropWhile_cons, h]

theorem stringify_length_pos (v : Json) : 1 ≤ (jsonStringify v).length := by
  obtain ⟨c, t, heq, -⟩ := stringify_head v
  rw [heq]
  simp

theorem quoteStr_eq (s : Str) :
    quoteStr s = '"' :: s.foldr (fun c acc => escapeChar c ++ acc) ['"'] := rfl

theorem quoteStr_length (s : Str) : 2 ≤ (quoteStr s).length := by
  rw [quoteStr_eq]
  have h := foldr_esc_length s ['"']
  have h2 : s.length + 1 ≤ (s.foldr (fun c acc => escapeChar c ++ acc) ['"']).length := by
    simpa using h
  have h3 : (2 : Nat) ≤ (s.foldr (fun c acc => escapeChar c ++ acc) ['"']).length + 1 := by
    omega
  simpa using h3

/-! ### Claim C5, part 6 — the JSON round trip and the final assembly -/

theorem stringifyElems_single (e : Json) : stringifyElems [e] = jsonStringify e := rfl

theorem stringifyElems_cons₂ (e e2 : Json) (es : List Json) :
    stringifyElems (e :: e2 :: es) = jsonStringify e ++ ',' :: stringifyElems (e2 :: es) := rfl

theorem stringifyMembers_single (k : Str) (v : Json) :
    stringifyMembers [(k, v)] = quoteStr k ++ ':' :: jsonStringify v := rfl

theorem stringifyMembers_cons₂ (k : Str) (v : Json) (m2 : Str × Json) (ms : List (Str × Json)) :
    stringifyMembers ((k, v) :: m2 :: ms) =
      quoteStr k ++ ':' :: jsonStringify v ++ ',' :: stringifyMembers (m2 :: ms) := rfl

theorem stringifyElems_head (e : Json) (es : List Json) :
    ∃ c t, stringifyElems (e :: es) = c :: t ∧ jsonWs c = false ∧
      (c = ']') = False ∧ (c = '}') = False := by
  obtain ⟨c, t, heq, f0, f1, f2⟩ := stringify_head e
  cases es with
  | nil => exact ⟨c, t, heq, f0, f1, f2⟩
  | cons e2 es2 =>
    refine ⟨c, t ++ ',' :: stringifyElems (e2 :: es2), ?_, f0, f1, f2⟩
    rw [stringifyElems_cons₂, heq]
    rfl

theorem stringifyMembers_head (k : Str) (v : Json) (ms : List (Str × Json)) :
    ∃ t, stringifyMembers ((k, v) :: ms) = '"' :: t := by
  cases ms with
  | nil => exact ⟨_, rfl⟩
  | cons m2 ms2 => exact ⟨_, rfl⟩

theorem parseValue_obj_eq (fuel : Nat) (cs : Str) :
    parseValue (fuel + 1) ('{' :: cs) =
      match skipWs cs with
      | '}' :: rest => some (.obj [], rest)
      | s2 => parseMembers fuel s2 [] := rfl

theorem parseValue_arr_eq (fuel : Nat) (cs : Str) :
    parseValue (fuel + 1) ('[' :: cs) =
      match skipWs cs with
      | ']' :: rest => some (.arr [], rest)
      | s2 => parseElems fuel s2 [] := rfl

theorem parseValue_str_eq (fuel : Nat) (cs : Str) :
    parseValue (fuel + 1) ('"' :: cs) =
      (parseStrBody (cs.length + 1) cs).map fun pr => (.str pr.1, pr.2) := rfl

theorem parseValue_num_eq (fuel : Nat) (c : Char) (cs : Str)
    (f3 : (c = '{') = False) (f4 : (c = '[') = False) (f5 : (c = '"') = False)
    (f6 : (c = 'n') = False) (f7 : (c = 't') = False) (f8 : (c = 'f') = False) :
    parseValue (fuel + 1) (c :: cs) =
      (parseNumber (c :: cs)).map fun pr => (.num pr.1, pr.2) := by
  rw [parseValue]
  simp only [f3, f4, f5, f6, f7, f8, if_false]

theorem parseElems_cons_eq (fuel : Nat) (s : Str) (acc : List Json) (v : Json) (r2 : Str)
    (hpv : parseValue fuel s = some (v, r2)) :
    parseElems (fuel + 1) s acc =
      (match skipWs r2 with
       | ',' :: rest2 => parseElems fuel (skipWs rest2) (acc ++ [v])
       | ']' :: rest2 => some (.arr (acc ++ [v]), rest2)
       | _ => none) := by
  rw [parseElems]
  simp only [hpv]

theorem parseMembers_cons_eq (fuel : Nat) (cs : Str) (acc : List (Str × Json))
    (k : Str) (r1 r2 r3 : Str) (v : Json)
    (hstr : parseStrBody (cs.length + 1) cs = some (k, r1))
    (hws1 : skipWs r1 = ':' :: r2)
    (hpv : parseValue fuel (skipWs r2) = some (v, r3)) :
    parseMembers (fuel + 1) ('"' :: cs) acc =
      (match skipWs r3 with
       | ',' :: rest4 => parseMembers fuel (skipWs rest4) (setKey acc k v)
       | '}' :: rest4 => some (.obj (setKey acc k v), rest4)
       | _ => none) := by
  rw [parseMembers]
  simp only [hstr, hws1, hpv]

/-- Correctness of `parseValue` at a given fuel. -/
def ParseValueOk (fuel : Nat) : Prop :=
  ∀ v rest, Json.wf v = true → (jsonStringify v).length ≤ fuel → stopOk rest = true →
    parseValue fuel (jsonStringify v ++ rest) = some (v, rest)

/-- Correctness of `parseMembers` at a given fuel. -/
def ParseMembersOk (fuel : Nat) : Prop :=
  ∀ ms acc rest, Json.wfMembers ms = true → ms ≠ [] →
    (∀ kv ∈ acc, ∀ kv2 ∈ ms, kv.1 ≠ kv2.1) →
    (stringifyMembers ms).length + 1 ≤ fuel →
    parseMembers fuel (stringifyMembers ms ++ '}' :: rest) acc = some (.obj (acc ++ ms), rest)

/-- Correctness of `parseElems` at a given fuel. -/
def ParseElemsOk (fuel : Nat) : Prop :=
  ∀ es acc rest, Json.wfElems es = true → es ≠ [] →
    (stringifyElems es).length + 1 ≤ fuel →
    parseElems fuel (stringifyElems es ++ ']' :: rest) acc = some (.arr (acc ++ es), rest)

theorem parseElems_step (fuel : Nat) (hv : ParseValueOk fuel) (he : ParseElemsOk fuel) :
    ParseElemsOk (fuel + 1) := by
  intro es acc rest hwf hne hlen
  cases es with
  | nil => exact absurd rfl hne
  | cons e es2 =>
    rw [Json.wfElems, Bool.and_eq_true] at hwf
    cases es2 with
    | nil =>
      rw [stringifyElems_single] at hlen ⊢
      have hpv : parseValue fuel (jsonStringify e ++ ']' :: rest) = some (e, ']' :: rest) :=
        hv e (']' :: rest) hwf.1 (by omega) rfl
      rw [parseElems_cons_eq fuel _ acc e (']' :: rest) hpv]
      have hsk : skipWs (']' :: rest) = ']' :: rest := skipWs_cons _ (by decide)
      simp only [hsk]
    | cons e2 es3 =>
      rw [stringifyElems_cons₂] at hlen ⊢
      obtain ⟨c2, t2, heq2, hws2, hne2, -⟩ := stringifyElems_head e2 es3
      have hassoc : (jsonStringify e ++ ',' :: stringifyElems (e2 :: es3)) ++ ']' :: rest =
          jsonStringify e ++ ',' :: (stringifyElems (e2 :: es3) ++ ']' :: rest) := by
        simp
      rw [hassoc]
      have hlen2 : (jsonStringify e).length ≤ fuel := by
        rw [List.length_append, List.length_cons] at hlen
        omega
      have hpv : parseValue fuel
          (jsonStringify e ++ ',' :: (stringifyElems (e2 :: es3) ++ ']' :: rest)) =
          some (e, ',' :: (stringifyElems (e2 :: es3) ++ ']' :: rest)) :=
        hv e _ hwf.1 hlen2 rfl
      rw [parseElems_cons_eq fuel _ acc e _ hpv]
      have hsk1 : skipWs (',' :: (stringifyElems (e2 :: es3) ++ ']' :: rest)) =
          ',' :: (stringifyElems (e2 :: es3) ++ ']' :: rest) := skipWs_cons _ (by decide)
      have hhead : stringifyElems (e2 :: es3) ++ ']' :: rest = c2 :: (t2 ++ ']' :: rest) := by
        rw [heq2]
        rfl
      have hsk2 : skipWs (stringifyElems (e2 :: es3) ++ ']' :: rest) =
          stringifyElems (e2 :: es3) ++ ']' :: rest := by
        rw [hhead]
        exact skipWs_cons _ hws2
      simp only [hsk1]
      rw [hsk2]
      have hlen3 : (stringifyElems (e2 :: es3)).length + 1 ≤ fuel := by
        have := stringify_length_pos e
        rw [List.length_append, List.length_cons] at hlen
        omega
      rw [he (e2 :: es3) (acc ++ [e]) rest hwf.2 (by simp) hlen3]
      simp

theorem quoteStr_append_reshape (k : Str) (X : Str) :
    quoteStr k ++ X = '"' :: k.foldr (fun c acc => escapeChar c ++ acc) ('"' :: X) := by
  rw [quoteStr_eq, List.cons_append, foldr_esc_append]
  rfl

theorem parseStrBody_quote (k : Str) (X : Str) :
    parseStrBody ((k.foldr (fun c acc => escapeChar c ++ acc) ('"' :: X)).length + 1)
      (k.foldr (fun c acc => escapeChar c ++ acc) ('"' :: X)) = some (k, X) := by
  apply parseStrBody_esc
  have h := foldr_esc_length k ('"' :: X)
  rw [List.length_cons] at h
  omega

theorem parseMembers_step (fuel : Nat) (hv : ParseValueOk fuel) (hm : ParseMembersOk fuel) :
    ParseMembersOk (fuel + 1) := by
  intro ms acc rest hwf hne hdisj hlen
  cases ms with
  | nil => exact absurd rfl hne
  | cons kv ms2 =>
    obtain ⟨k, v⟩ := kv
    rw [Json.wfMembers, Bool.and_eq_true, Bool.and_eq_true] at hwf
    obtain ⟨⟨hfresh, hwfv⟩, hwfms⟩ := hwf
    have hsetk : setKey acc k v = acc ++ [(k, v)] :=
      setKey_fresh v fun kv2 m => hdisj kv2 m (k, v) (by simp)
    obtain ⟨cv, tv, heqv, hwsv, -, -⟩ := stringify_head v
    cases ms2 with
    | nil =>
      rw [stringifyMembers_single] at hlen ⊢
      have htext : (quoteStr k ++ ':' :: jsonStringify v) ++ '}' :: rest =
          '"' :: k.foldr (fun c acc => escapeChar c ++ acc)
            ('"' :: (':' :: (jsonStringify v ++ '}' :: rest))) := by
        rw [List.append_assoc, List.cons_append, quoteStr_append_reshape]
      rw [htext]
      have hskv : skipWs (jsonStringify v ++ '}' :: rest) = jsonStringify v ++ '}' :: rest := by
        rw [heqv, List.cons_append]
        exact skipWs_cons _ hwsv
      have hlenv : (jsonStringify v).length ≤ fuel := by
        have hq := quoteStr_length k
        rw [List.length_append, List.length_cons] at hlen
        omega
      have hpv : parseValue fuel (skipWs (jsonStringify v ++ '}' :: rest)) =
          some (v, '}' :: rest) := by
        rw [hskv]
        exact hv v ('}' :: rest) hwfv hlenv rfl
      rw [parseMembers_cons_eq fuel _ acc k _ _ ('}' :: rest) v
        (parseStrBody_quote k (':' :: (jsonStringify v ++ '}' :: rest)))
        (skipWs_cons _ (by decide)) hpv]
      have hsk3 : skipWs ('}' :: rest) = '}' :: rest := skipWs_cons _ (by decide)
      simp only [hsk3, hsetk]
    | cons m2 ms3 =>
      obtain ⟨k2, v2⟩ := m2
      rw [stringifyMembers_cons₂] at hlen ⊢
      obtain ⟨tm, heqm⟩ := stringifyMembers_head k2 v2 ms3
      have htext : (quoteStr k ++ ':' :: jsonStringify v ++
            ',' :: stringifyMembers ((k2, v2) :: ms3)) ++ '}' :: rest =
          '"' :: k.foldr (fun c acc => escapeChar c ++ acc)
            ('"' :: (':' :: (jsonStringify v ++
              ',' :: (stringifyMembers ((k2, v2) :: ms3) ++ '}' :: rest)))) := by
        rw [← quoteStr_append_reshape]
        simp
      rw [htext]
      have hlenv : (jsonStringify v).length ≤ fuel := by
        have hq := quoteStr_length k
        rw [List.length_append, List.length_cons, List.length_append, List.length_cons] at hlen
        omega
      have hpv : parseValue fuel (skipWs (jsonStringify v ++
          ',' :: (stringifyMembers ((k2, v2) :: ms3) ++ '}' :: rest))) =
          some (v, ',' :: (stringifyMembers ((k2, v2) :: ms3) ++ '}' :: rest)) := by
        rw [show skipWs (jsonStringify v ++
            ',' :: (stringifyMembers ((k2, v2) :: ms3) ++ '}' :: rest)) =
            jsonStringify v ++ ',' :: (stringifyMembers ((k2, v2) :: ms3) ++ '}' :: rest) by
          rw [heqv, List.cons_append]
          exact skipWs_cons _ hwsv]
        exact hv v _ hwfv hlenv rfl
      rw [parseMembers_cons_eq fuel _ acc k _ _
        (',' :: (stringifyMembers ((k2, v2) :: ms3) ++ '}' :: rest)) v
        (parseStrBody_quote k _) (skipWs_cons _ (by decide)) hpv]
      have hsk1 : skipWs (',' :: (stringifyMembers ((k2, v2) :: ms3) ++ '}' :: rest)) =
          ',' :: (stringifyMembers ((k2, v2) :: ms3) ++ '}' :: rest) :=
        skipWs_cons _ (by decide)
      have hsk2 : skipWs (stringifyMembers ((k2, v2) :: ms3) ++ '}' :: rest) =
          stringifyMembers ((k2, v2) :: ms3) ++ '}' :: rest := by
        rw [heqm, List.cons_append]
        exact skipWs_cons _ (by decide)
      simp only [hsk1]
      rw [hsk2]
      have hlen3 : (stringifyMembers ((k2, v2) :: ms3)).length + 1 ≤ fuel := by
        have hq := quoteStr_length k
        have hs := stringify_length_pos v
        rw [List.length_append, List.length_cons, List.length_append, List.length_cons] at hlen
        omega
      have hdisj2 : ∀ kv2 ∈ setKey acc k v, ∀ kv3 ∈ (k2, v2) :: ms3, kv2.1 ≠ kv3.1 := by
        rw [hsetk]
        intro kv2 hmem kv3 hmem3
        rcases List.mem_append.mp hmem with hacc | hkv
        · exact hdisj kv2 hacc kv3 (List.mem_cons_of_mem _ hmem3)
        · obtain rfl : kv2 = (k, v) := by simpa using hkv
          have := List.all_eq_true.mp hfresh kv3 hmem3
          simp only [decide_eq_true_eq] at this
          exact fun e => this (e ▸ rfl)
      rw [hm ((k2, v2) :: ms3) (setKey acc k v) rest hwfms (by simp) hdisj2 hlen3, hsetk]
      simp

theorem parseValue_step (fuel : Nat) (hm : ParseMembersOk fuel) (he : ParseElemsOk fuel) :
    ParseValueOk (fuel + 1) := by
  intro v rest hwf hlen hstop
  cases v with
  | null =>
    show parseValue (fuel + 1) ('n' :: 'u' :: 'l' :: 'l' :: rest) = some (.null, rest)
    rfl
  | bool b =>
    cases b
    · show parseValue (fuel + 1) ('f' :: 'a' :: 'l' :: 's' :: 'e' :: rest) =
        some (.bool false, rest)
      rfl
    · show parseValue (fuel + 1) ('t' :: 'r' :: 'u' :: 'e' :: rest) = some (.bool true, rest)
      rfl
  | num n =>
    have hj : jsonStringify (.num n) = intToStr n := rfl
    obtain ⟨c, t, heq, f0, f1, f2, f3, f4, f5, f6, f7, f8⟩ := intToStr_head n
    rw [hj, heq, List.cons_append, parseValue_num_eq fuel c (t ++ rest) f3 f4 f5 f6 f7 f8,
      show c :: (t ++ rest) = intToStr n ++ rest by rw [heq]; rfl,
      parseNumber_intToStr n rest hstop]
    rfl
  | str s =>
    have hj : jsonStringify (.str s) = quoteStr s := rfl
    rw [hj, quoteStr_append_reshape s rest, parseValue_str_eq, parseStrBody_quote s rest]
    rfl
  | arr es =>
    cases es with
    | nil =>
      show parseValue (fuel + 1) ('[' :: ']' :: rest) = some (.arr [], rest)
      rfl
    | cons e es2 =>
      have hj : jsonStringify (.arr (e :: es2)) = '[' :: stringifyElems (e :: es2) ++ [']'] := rfl
      have hwfe : Json.wfElems (e :: es2) = true := by
        rw [show Json.wf (.arr (e :: es2)) = Json.wfElems (e :: es2) from rfl] at hwf
        exact hwf
      have htext : ('[' :: stringifyElems (e :: es2) ++ [']']) ++ rest =
          '[' :: (stringifyElems (e :: es2) ++ ']' :: rest) := by
        simp
      rw [hj, htext, parseValue_arr_eq]
      obtain ⟨c, t, heq, hws, hnr, -⟩ := stringifyElems_head e es2
      have hsk : skipWs (stringifyElems (e :: es2) ++ ']' :: rest) =
          stringifyElems (e :: es2) ++ ']' :: rest := by
        rw [heq, List.cons_append]
        exact skipWs_cons _ hws
      rw [hsk, heq, List.cons_append]
      have hlen2 : (stringifyElems (e :: es2)).length + 1 ≤ fuel := by
        rw [hj] at hlen
        simp only [List.length_append, List.length_cons] at hlen
        omega
      split
      · rename_i rest2 harm
        injection harm with h1 _
        exact (hnr ▸ h1 : False).elim
      · rw [← List.cons_append, ← heq,
          he (e :: es2) [] rest hwfe (by simp) hlen2]
        rfl
  | obj ms =>
    cases ms with
    | nil =>
      show parseValue (fuel + 1) ('{' :: '}' :: rest) = some (.obj [], rest)
      rfl
    | cons m ms2 =>
      obtain ⟨k, v⟩ := m
      have hj : jsonStringify (.obj ((k, v) :: ms2)) =
          '{' :: stringifyMembers ((k, v) :: ms2) ++ ['}'] := rfl
      have hwfm : Json.wfMembers ((k, v) :: ms2) = true := by
        rw [show Json.wf (.obj ((k, v) :: ms2)) = Json.wfMembers ((k, v) :: ms2) from rfl] at hwf
        exact hwf
      have htext : ('{' :: stringifyMembers ((k, v) :: ms2) ++ ['}']) ++ rest =
          '{' :: (stringifyMembers ((k, v) :: ms2) ++ '}' :: rest) := by
        simp
      rw [hj, htext, parseValue_obj_eq]
      obtain ⟨tm, heqm⟩ := stringifyMembers_head k v ms2
      have hsk : skipWs (stringifyMembers ((k, v) :: ms2) ++ '}' :: rest) =
          stringifyMembers ((k, v) :: ms2) ++ '}' :: rest := by
        rw [heqm, List.cons_append]
        exact skipWs_cons _ (by decide)
      rw [hsk, heqm, List.cons_append]
      have hlen2 : (stringifyMembers ((k, v) :: ms2)).length + 1 ≤ fuel := by
        rw [hj] at hlen
        simp only [List.length_append, List.length_cons] at hlen
        omega
      split
      · rename_i rest2 harm
        injection harm with h1 _
        exact absurd h1 (by decide)
      · rw [← List.cons_append, ← heqm,
          hm ((k, v) :: ms2) [] rest hwfm (by simp)
            (fun kv2 hkv2 => absurd hkv2 (List.not_mem_nil kv2)) hlen2]
        rfl

theorem parse_all (fuel : Nat) : ParseValueOk fuel ∧ ParseMembersOk fuel ∧ ParseElemsOk fuel := by
  induction fuel with
  | zero =>
    refine ⟨?_, ?_, ?_⟩
    · intro v rest hwf hlen _
      have := stringify_length_pos v
      omega
    · intro ms acc rest _ _ _ hlen
      omega
    · intro es acc rest _ _ hlen
      omega
  | succ fuel ih =>
    exact ⟨parseValue_step fuel ih.2.1 ih.2.2, parseMembers_step fuel ih.1 ih.2.1,
      parseElems_step fuel ih.1 ih.2.2⟩

theorem jsonParse_stringify (v : Json) (hwf : Json.wf v = true) :
    jsonParse (jsonStringify v) = some v := by
  obtain ⟨c, t, heq, hws, -, -⟩ := stringify_head v
  rw [jsonParse]
  have hsk : skipWs (jsonStringify v) = jsonStringify v := by
    rw [heq]
    exact skipWs_cons _ hws
  have hpv := (parse_all ((jsonStringify v).length + 1)).1 v [] hwf (by omega) rfl
  rw [List.append_nil] at hpv
  rw [hsk]
  simp only [hpv]
  rfl

theorem b64EncNoPad_not_dot (bs : List Nat) : '.' ∉ b64EncNoPad bs := by
  intro hmem
  have h := List.all_eq_true.mp (b64EncNoPad_all_std bs) '.' hmem
  exact absurd h (by decide)

/-- Claim C5: for all header and payload mappings whose objects carry
pairwise-distinct keys (as every real JS object does) and every signature
string, decoding the token produced by `generateJWT` with padding stripped
yields a header and a payload equal to the originals — the round-trip law,
modulo base64 padding.  (The signature slot is whatever the third
dot-segment of the stripped signature happens to be; the claim constrains
only header and payload.) -/
theorem decode_encode_roundtrip (hm0 pm0 : List (Str × Json)) (sig : Str)
    (hwfh : Json.wf (.obj hm0) = true) (hwfp : Json.wf (.obj pm0) = true) :
    ∃ s, parseJWT (generateJWT (.obj hm0) (.obj pm0) sig true) =
      some ⟨.obj hm0, .obj pm0, s⟩ := by
  have hgen := (generateJWT_spec (.obj hm0) (.obj pm0) sig).1
  have hsplit : jsSplit
      (b64EncNoPad (utf8Enc (jsonStringify (.obj hm0))) ++
        '.' :: (b64EncNoPad (utf8Enc (jsonStringify (.obj pm0))) ++
          '.' :: sig.filter (fun c => c ≠ '='))) '.' =
      b64EncNoPad (utf8Enc (jsonStringify (.obj hm0))) ::
        b64EncNoPad (utf8Enc (jsonStringify (.obj pm0))) ::
        jsSplit (sig.filter (fun c => c ≠ '=')) '.' := by
    rw [jsSplit_append _ (b64EncNoPad_not_dot _), jsSplit_append _ (b64EncNoPad_not_dot _)]
  have hdecA : jsonParse (utf8Dec (b64Dec (b64EncNoPad (utf8Enc (jsonStringify (.obj hm0)))))) =
      some (.obj hm0) := by
    rw [b64_roundtrip _ (utf8Enc_lt_256 _), utf8_roundtrip, jsonParse_stringify _ hwfh]
  have hdecB : jsonParse (utf8Dec (b64Dec (b64EncNoPad (utf8Enc (jsonStringify (.obj pm0)))))) =
      some (.obj pm0) := by
    rw [b64_roundtrip _ (utf8Enc_lt_256 _), utf8_roundtrip, jsonParse_stringify _ hwfp]
  refine ⟨(b64EncNoPad (utf8Enc (jsonStringify (.obj hm0))) ::
    b64EncNoPad (utf8Enc (jsonStringify (.obj pm0))) ::
    jsSplit (sig.filter (fun c => c ≠ '=')) '.').get? 2, ?_⟩
  rw [hgen, parseJWT]
  simp only [hsplit, List.get?, hdecA, hdecB]

/-- Witness for C5 at the spec-scenario header and payload. -/
theorem decode_encode_roundtrip_witness :
    (parseJWT (generateJWT (.obj [("alg".toList, .str "HS256".toList)])
        (.obj [("sub".toList, .str "1234".toList)]) "sig123".toList true)).map
      (fun d => (d.header, d.payload)) =
      some (Json.obj [("alg".toList, Json.str "HS256".toList)],
            Json.obj [("sub".toList, Json.str "1234".toList)]) := by
  obtain ⟨s, hs⟩ := decode_encode_roundtrip [("alg".toList, .str "HS256".toList)]
    [("sub".toList, .str "1234".toList)] "sig123".toList (by decide) (by decide)
  rw [hs]
  rfl
